import Mathlib

/-!
Verification development for the mdbook-validator preprocessor.

The program text is embedded shallowly: Rust strings become `List Char`
(abbreviated `Str`), byte indices become `Nat` indices into that list, and
each Rust function of interest becomes an executable Lean definition that is
a direct transcription of the source.  The Markdown parsing performed by the
external pulldown-cmark crate is not part of this repository; the fence
event layer it provides is modelled from the specification (see `scanFences`
below).  All definitions are computable so that concrete inputs can be
checked by `decide`.
-/

namespace MdbookValidator

/-- Rust `&str` contents, embedded as a list of characters. -/
abbrev Str := List Char

/-- Embeds Rust `char::is_whitespace` (the Unicode White_Space property). -/
def rustIsWhitespace (c : Char) : Bool :=
  c = ' ' || c = '\t' || c = '\n' || c = '\r' ||
  c.val = 0x0b || c.val = 0x0c || c.val = 0x85 || c.val = 0xA0 ||
  c.val = 0x1680 || (0x2000 ≤ c.val && c.val ≤ 0x200A) ||
  c.val = 0x2028 || c.val = 0x2029 || c.val = 0x202F ||
  c.val = 0x205F || c.val = 0x3000

/-- Embeds Rust `str::trim_start`. -/
def rustTrimStart (s : Str) : Str := s.dropWhile rustIsWhitespace

/-- Embeds Rust `str::trim_end`. -/
def rustTrimEnd (s : Str) : Str := (s.reverse.dropWhile rustIsWhitespace).reverse

/-- Embeds Rust `str::trim`. -/
def rustTrim (s : Str) : Str := rustTrimEnd (rustTrimStart s)

/-- Embeds Rust `str::split_whitespace` (non-empty chunks between
whitespace runs). -/
def splitWhitespace (s : Str) : List Str :=
  (s.splitOnP rustIsWhitespace).filter (fun w => !w.isEmpty)

/-- Embeds Rust `str::strip_prefix`: `some` of the remainder when `pat`
is a prefix of `s`. -/
def stripPfx (pat s : Str) : Option Str :=
  if pat.isPrefixOf s then some (s.drop pat.length) else none

/-- Auxiliary for `findSubstr`: first index `≥ i` (in the original string)
at which `pat` occurs in the remaining suffix `s`. -/
def findSubstrAux (pat : Str) : Str → Nat → Option Nat
  | [], i => if pat.isEmpty then some i else none
  | c :: rest, i =>
    if pat.isPrefixOf (c :: rest) then some i else findSubstrAux pat rest (i + 1)

/-- Embeds Rust `str::find(&str)`: index of the first occurrence of `pat`
in `s`. -/
def findSubstr (pat s : Str) : Option Nat := findSubstrAux pat s 0

/-- Embeds Rust `str::find(char)`. -/
def findCh (c : Char) (s : Str) : Option Nat := findSubstr [c] s

/-- Embeds Rust `str::rfind(char)`: index of the last occurrence of `c`. -/
def rfindCh (c : Char) : Str → Option Nat
  | [] => none
  | d :: t =>
    match rfindCh c t with
    | some i => some (i + 1)
    | none => if d = c then some 0 else none

/-- The half-open slice `s[a..b]` of a Rust string. -/
def sliceRange (s : Str) (a b : Nat) : Str := (s.take b).drop a

/-- Embeds Rust `str::split_inclusive('\n')`: pieces each retaining their
terminating newline, the final piece possibly without one; the empty string
yields no pieces. -/
def splitInclusive : Str → List Str
  | [] => []
  | c :: rest =>
    if c = '\n' then [c] :: splitInclusive rest
    else
      match splitInclusive rest with
      | [] => [[c]]
      | l :: ls => (c :: l) :: ls

/-- The per-piece map of Rust `str::lines`: remove one trailing `'\n'` if
present, then one trailing `'\r'` if present. -/
def stripLineEnd (l : Str) : Str :=
  if l.getLast? = some '\n' then
    let l' := l.dropLast
    if l'.getLast? = some '\r' then l'.dropLast else l'
  else l

/-- Embeds Rust `str::lines`. -/
def rustLines (s : Str) : List Str := (splitInclusive s).map stripLineEnd

/-- Embeds `.collect::<Vec<_>>().join("\n")` on a line iterator. -/
def joinNL : List Str → Str
  | [] => []
  | [x] => x
  | x :: xs => x ++ '\n' :: joinNL xs

/-! ## Embedding of src/src/parser.rs -/

/-- The literal token `"validator="`. -/
def validatorEqTok : Str := ['v', 'a', 'l', 'i', 'd', 'a', 't', 'o', 'r', '=']

/-- The literal token `"skip"`. -/
def skipTok : Str := ['s', 'k', 'i', 'p']

/-- The literal token `"hidden"`. -/
def hiddenTok : Str := ['h', 'i', 'd', 'd', 'e', 'n']

/-- Embeds `parse_info_string` exactly as it appears in src/src/parser.rs:
returns the `(language, validator, skip)` triple.  Note that this version
of the function has no `hidden` component. -/
def parseInfoString (info : Str) : Str × Option Str × Bool :=
  let parts := splitWhitespace info
  let language := parts.headD []
  let validator := (parts.findSome? (fun part => stripPfx validatorEqTok part)).filter
    (fun v => !v.isEmpty)
  let skip := parts.contains skipTok
  (language, validator, skip)

/-- Info-string attributes as consumed by the preprocessor. -/
structure InfoAttrs where
  language : Str
  validator : Option Str
  skip : Bool
  hidden : Bool
deriving Repr, DecidableEq

/-- Modelled from the spec: the four-component `parse_info_string` that
`find_validator_blocks` and `strip_markers_from_chapter` destructure as
`(language, validator, skip, hidden)`.  That version is absent from src/
(src/src/parser.rs contains only the three-component variant above; only
its callers appear under src/).  The `language`, `validator` and `skip`
components follow the src version verbatim; `hidden` is the bare token of
the info string exactly as the spec describes `skip`: set when some
whitespace-separated token is the literal word `hidden`. -/
def parseInfoString4 (info : Str) : InfoAttrs :=
  let p := parseInfoString info
  { language := p.1
    validator := p.2.1
    skip := p.2.2
    hidden := (splitWhitespace info).contains hiddenTok }

/-- Embeds the `ExtractedMarkers` struct of src/src/parser.rs. -/
structure ExtractedMarkers where
  setup : Option Str := none
  assertions : Option Str := none
  expect : Option Str := none
  visibleContent : Str := []
deriving Repr, DecidableEq

/-- The literal `"@@"`. -/
def atAtTok : Str := ['@', '@']

/-- Embeds `strip_double_at_prefix` of src/src/parser.rs: per line, remove
a leading `"@@"` when present, keep the line otherwise; join with
newlines. -/
def stripDoubleAt (content : Str) : Str :=
  joinNL ((rustLines content).map (fun line => (stripPfx atAtTok line).getD line))

/-- Embeds `ExtractedMarkers::validation_content`. -/
def validationContent (m : ExtractedMarkers) : Str :=
  stripDoubleAt m.visibleContent

/-- The literal `"-->"`. -/
def arrowCloseTok : Str := ['-', '-', '>']

/-- The literal `"<!--SETUP"`. -/
def setupTag : Str := ['<', '!', '-', '-', 'S', 'E', 'T', 'U', 'P']

/-- The literal `"<!--ASSERT"`. -/
def assertTag : Str := ['<', '!', '-', '-', 'A', 'S', 'S', 'E', 'R', 'T']

/-- The literal `"<!--EXPECT"`. -/
def expectTag : Str := ['<', '!', '-', '-', 'E', 'X', 'P', 'E', 'C', 'T']

/-- Embeds `extract_marker_block` of src/src/parser.rs: find the marker,
find the newline after it, find the `-->` closer after that newline;
return `(before, trimmed inner, after)` or `none`. -/
def extractMarkerBlock (content marker : Str) : Option (Str × Str × Str) :=
  match findSubstr marker content with
  | none => none
  | some start =>
    match findCh '\n' (content.drop start) with
    | none => none
    | some i =>
      let markerEnd := start + i + 1
      match findSubstr arrowCloseTok (content.drop markerEnd) with
      | none => none
      | some endMarker =>
        let e := markerEnd + endMarker
        some (content.take start, rustTrim (sliceRange content markerEnd e),
          content.drop (e + 3))

/-- Embeds `extract_markers` of src/src/parser.rs: extract the SETUP,
ASSERT and EXPECT regions in that order, each from the residue of the
previous step, then trim the remainder into the visible content. -/
def extractMarkers (content : Str) : ExtractedMarkers :=
  let (setup, rem1) :=
    match extractMarkerBlock content setupTag with
    | some (b, inner, a) => (some inner, b ++ a)
    | none => (none, content)
  let (assertions, rem2) :=
    match extractMarkerBlock rem1 assertTag with
    | some (b, inner, a) => (some inner, b ++ a)
    | none => (none, rem1)
  let (expectV, rem3) :=
    match extractMarkerBlock rem2 expectTag with
    | some (b, inner, a) => (some inner, b ++ a)
    | none => (none, rem2)
  { setup := setup
    assertions := assertions
    expect := expectV
    visibleContent := rustTrim rem3 }

/-! ## Embedding of src/src/transpiler.rs -/

/-- The end adjustment of `strip_marker_block`: advance past the `-->`
closer's trailing newline when one is present. -/
def nlAfter (content : Str) (e : Nat) : Nat :=
  if content[e]? = some '\n' then e + 1 else e

/-- The start adjustment of `strip_marker_block`: back up over a leading
newline directly before the marker when one is present. -/
def nlBefore (content : Str) (start : Nat) : Nat :=
  if 0 < start ∧ content[start - 1]? = some '\n' then start - 1 else start

/-- One-step simplification of `strip_marker_block`'s loop body, fuelled so
that the definition stays structurally recursive (each iteration removes at
least the three bytes of the `-->` closer, so `content.length + 1` units of
fuel always suffice).  Transcribes the `while let` loop of
src/src/transpiler.rs. -/
def stripMarkerBlockFuel : Nat → Str → Str → Str
  | 0, content, _ => content
  | fuel + 1, content, marker =>
    match findSubstr marker content with
    | none => content
    | some start =>
      match findSubstr arrowCloseTok (content.drop start) with
      | none => content
      | some endOffset =>
        stripMarkerBlockFuel fuel
          (content.take (nlBefore content start) ++
            content.drop (nlAfter content (start + endOffset + 3)))
          marker

/-- Embeds `strip_marker_block` of src/src/transpiler.rs. -/
def stripMarkerBlock (content marker : Str) : Str :=
  stripMarkerBlockFuel (content.length + 1) content marker

/-- Embeds `strip_double_at_lines` of src/src/transpiler.rs: drop every
line that starts with `"@@"`. -/
def stripDoubleAtLines (content : Str) : Str :=
  joinNL ((rustLines content).filter (fun line => !(atAtTok.isPrefixOf line)))

/-- Embeds `strip_markers` of src/src/transpiler.rs: excise the SETUP,
ASSERT and EXPECT regions, then drop `"@@"` lines. -/
def stripMarkers (content : Str) : Str :=
  stripDoubleAtLines
    (stripMarkerBlock (stripMarkerBlock (stripMarkerBlock content setupTag) assertTag)
      expectTag)

/-! ## The Markdown fence event layer

The preprocessor walks pulldown-cmark events carrying byte spans.  That
crate is an external dependency, not code of this repository, so the event
layer is modelled from the specification: a fence is a code region opened
and closed by a line beginning with three backticks, the info string is the
text on the opening line after the backticks, the raw inner text is the
region between the two fence lines, and an unclosed fence runs to the end
of the chapter. -/

/-- The literal three-backtick fence delimiter. -/
def fenceTok : Str := ['\x60', '\x60', '\x60']

/-- Remove one trailing newline from a line piece. -/
def stripNL (l : Str) : Str := if l.getLast? = some '\n' then l.dropLast else l

/-- Modelled from the spec: one fenced code block as reported by the
Markdown parser's offset events.  `openStart` is the offset of the opening
fence line (the span start of the start event), `contentStart ..
contentEnd` is the raw inner text (the span of the text event),
and `fenceEnd` is the span end of the end event: just past the closing
fence characters, before their line terminator, or the content length for
an unclosed fence. -/
structure FencedBlock where
  info : Str
  openStart : Nat
  contentStart : Nat
  contentEnd : Nat
  fenceEnd : Nat
deriving Repr, DecidableEq

/-- Modelled from the spec: scan the newline-delimited lines of the
chapter, pairing fence lines; `off` is the offset of the first remaining
line and the optional state holds the opening offset, info string and
content start of a block whose closer has not yet been seen. -/
def scanFencesAux : List Str → Nat → Option (Nat × Str × Nat) → List FencedBlock
  | [], _, none => []
  | [], off, some (os, info, cs) => [⟨info, os, cs, off, off⟩]
  | l :: ls, off, none =>
    if fenceTok.isPrefixOf l then
      scanFencesAux ls (off + l.length) (some (off, (stripNL l).drop 3, off + l.length))
    else scanFencesAux ls (off + l.length) none
  | l :: ls, off, some (os, info, cs) =>
    if fenceTok.isPrefixOf l then
      ⟨info, os, cs, off, off + (stripNL l).length⟩ :: scanFencesAux ls (off + l.length) none
    else scanFencesAux ls (off + l.length) (some (os, info, cs))

/-- Modelled from the spec: the fenced blocks of a chapter, in document
order, with their event byte spans. -/
def scanFences (content : Str) : List FencedBlock :=
  scanFencesAux (splitInclusive content) 0 none

/-! ## Embedding of src/src/preprocessor.rs: block collection and the
chapter rewriter -/

/-- Embeds the `ValidatorBlock` struct of src/src/preprocessor.rs. -/
structure ValidatorBlock where
  validatorName : Str
  markers : ExtractedMarkers
  skip : Bool
  hidden : Bool
deriving Repr, DecidableEq

/-- Embeds `find_validator_blocks` of src/src/preprocessor.rs: keep the
fenced blocks whose info string names a non-empty validator, extracting
the markers of their raw inner text. -/
def findValidatorBlocks (content : Str) : List ValidatorBlock :=
  (scanFences content).foldr
    (fun b acc =>
      let attrs := parseInfoString4 b.info
      match attrs.validator with
      | some name =>
        if !name.isEmpty then
          { validatorName := name
            markers := extractMarkers (sliceRange content b.contentStart b.contentEnd)
            skip := attrs.skip
            hidden := attrs.hidden } :: acc
        else acc
      | none => acc)
    []

/-- Embeds the local `Edit` enum of `strip_markers_from_chapter`. -/
inductive Edit where
  | replace (start stop : Nat) (content : Str)
  | delete (start stop : Nat)
deriving Repr, DecidableEq

/-- The start offset of an edit (the sort key). -/
def Edit.startOf : Edit → Nat
  | .replace s _ _ => s
  | .delete s _ => s

/-- Embeds `content[..block_start].rfind('\n').map_or(0, |i| i + 1)`:
the start of the line containing offset `p`. -/
def lineStartBefore (content : Str) (p : Nat) : Nat :=
  match rfindCh '\n' (content.take p) with
  | none => 0
  | some i => i + 1

/-- Embeds `content[range.end..].find('\n').map_or(range.end, |i|
range.end + i + 1)`: one past the newline terminating the line containing
offset `p`, or `p` itself when no newline follows. -/
def lineEndAfter (content : Str) (p : Nat) : Nat :=
  match findCh '\n' (content.drop p) with
  | none => p
  | some i => p + i + 1

/-- The edits contributed by one fenced block in
`strip_markers_from_chapter`: hidden blocks are deleted from line start
through terminating newline; validator blocks with a non-trivial text span
get their inner text replaced by its marker-stripped trimmed form. -/
def editsOfBlock (content : Str) (b : FencedBlock) : List Edit :=
  let attrs := parseInfoString4 b.info
  if attrs.hidden then
    [.delete (lineStartBefore content b.openStart) (lineEndAfter content b.fenceEnd)]
  else if attrs.validator.isSome then
    if b.contentStart < b.contentEnd then
      let orig := sliceRange content b.contentStart b.contentEnd
      let trimmed := rustTrim (stripMarkers orig)
      if trimmed ≠ rustTrim orig then
        [.replace b.contentStart b.contentEnd (trimmed ++ ['\n'])]
      else []
    else []
  else []

/-- All edits of a chapter, in document order. -/
def editsOf (content : Str) : List Edit :=
  ((scanFences content).map (editsOfBlock content)).flatten

/-- Insertion step of the descending sort by start offset. -/
def insertDesc (e : Edit) : List Edit → List Edit
  | [] => [e]
  | x :: xs => if x.startOf ≤ e.startOf then e :: x :: xs else x :: insertDesc e xs

/-- Embeds `edits.sort_by(... b_start.cmp(&a_start))`: sort the edits by
start offset, descending. -/
def sortByStartDesc : List Edit → List Edit
  | [] => []
  | e :: es => insertDesc e (sortByStartDesc es)

/-- Embeds `result.replace_range(...)` for one edit. -/
def applyEdit (content : Str) : Edit → Str
  | .replace s e r => content.take s ++ r ++ content.drop e
  | .delete s e => content.take s ++ content.drop e

/-- The end offset of an edit. -/
def Edit.stopOf : Edit → Nat
  | .replace _ e _ => e
  | .delete _ e => e

/-- The replacement text of an edit (empty for a deletion). -/
def Edit.replOf : Edit → Str
  | .replace _ _ r => r
  | .delete _ _ => []

/-- The chapter characters annotated with their original byte offsets. -/
def annotChars (s : Str) : List (Option Nat × Char) :=
  s.enum.map (fun p => (some p.1, p.2))

/-- The replacement text of an edit, annotated as fresh text without an
origin offset. -/
def annRepl (e : Edit) : List (Option Nat × Char) :=
  e.replOf.map (fun c => ((none : Option Nat), c))

/-- Render an ascending disjoint edit list left to right over a base
list: keep the base up to each edit, emit its replacement, resume past
its end. -/
def renderAscL {α : Type} (base : List α) (repl : Edit → List α) :
    Nat → List Edit → List α
  | pos, [] => base.drop pos
  | pos, e :: rest =>
    (base.take e.startOf).drop pos ++ repl e ++ renderAscL base repl e.stopOf rest

/-- Well-formedness of an edit list relative to a cursor: each edit
starts at or after the cursor, has a non-empty range ending within the
content, and leaves the cursor at its end, so the list is ascending and
pairwise disjoint. -/
def chainOk (len : Nat) : Nat → List Edit → Prop
  | pos, [] => pos ≤ len
  | pos, e :: rest =>
    pos ≤ e.startOf ∧ e.startOf < e.stopOf ∧ e.stopOf ≤ len ∧
      chainOk len e.stopOf rest

/-- Embeds `normalize_blank_lines`'s character fold: keep a newline only
while the run of consecutive newlines has length at most two. -/
def normalizeNl : Str → Nat → Str
  | [], _ => []
  | c :: rest, k =>
    if c = '\n' then
      if k + 1 ≤ 2 then c :: normalizeNl rest (k + 1) else normalizeNl rest (k + 1)
    else c :: normalizeNl rest 0

/-- Embeds `normalize_blank_lines` of src/src/preprocessor.rs. -/
def normalizeBlankLines (content : Str) : Str :=
  rustTrim (normalizeNl content 0)

/-- Embeds `strip_markers_from_chapter` of src/src/preprocessor.rs:
compute the edits, apply them in descending start order, then normalize
blank lines. -/
def stripMarkersFromChapter (content : Str) : Str :=
  normalizeBlankLines ((sortByStartDesc (editsOf content)).foldl applyEdit content)

/-! ## Embedding of src/src/error.rs -/

/-- Embeds the `ValidatorError` enum of src/src/error.rs. -/
inductive ValidatorError where
  | config (message : Str)
  | containerStartup (message : Str)
  | containerExec (message : Str)
  | setupFailed (exitCode : Int) (message : Str)
  | queryFailed (exitCode : Int) (message : Str)
  | validationFailed (exitCode : Int) (message : Str)
  | unknownValidator (name : Str)
  | invalidConfig (name : Str) (reason : Str)
  | fixturesError (message : Str)
  | scriptNotFound (path : Str)
  | mutuallyExclusiveAttributes
deriving Repr, DecidableEq

/-- Embeds `ValidatorError::code`. -/
def ValidatorError.code : ValidatorError → Str
  | .config _ => "E001".toList
  | .containerStartup _ => "E002".toList
  | .containerExec _ => "E003".toList
  | .setupFailed _ _ => "E004".toList
  | .queryFailed _ _ => "E005".toList
  | .validationFailed _ _ => "E006".toList
  | .unknownValidator _ => "E007".toList
  | .invalidConfig _ _ => "E008".toList
  | .fixturesError _ => "E009".toList
  | .scriptNotFound _ => "E010".toList
  | .mutuallyExclusiveAttributes => "E011".toList

/-- Decimal rendering of an exit code, as Rust `Display` for `i32`. -/
def intStr (i : Int) : Str := (toString i).toList

/-- Embeds the `#[error(...)]` display strings of src/src/error.rs. -/
def ValidatorError.display : ValidatorError → Str
  | .config m => "[E001] Configuration error: ".toList ++ m
  | .containerStartup m => "[E002] Container startup failed: ".toList ++ m
  | .containerExec m => "[E003] Container exec failed: ".toList ++ m
  | .setupFailed ec m =>
    "[E004] Setup script failed (exit ".toList ++ intStr ec ++ "): ".toList ++ m
  | .queryFailed ec m =>
    "[E005] Query execution failed (exit ".toList ++ intStr ec ++ "): ".toList ++ m
  | .validationFailed ec m =>
    "[E006] Validation failed (exit ".toList ++ intStr ec ++ "): ".toList ++ m
  | .unknownValidator n => "[E007] Unknown validator '".toList ++ n ++ "'".toList
  | .invalidConfig n r =>
    "[E008] Invalid validator config for '".toList ++ n ++ "': ".toList ++ r
  | .fixturesError m => "[E009] Fixtures directory error: ".toList ++ m
  | .scriptNotFound p => "[E010] Script not found: ".toList ++ p
  | .mutuallyExclusiveAttributes =>
    "[E011] 'hidden' and 'skip' are mutually exclusive".toList

/-- An `anyhow::Error` as the preprocessor produces it: either a bare
message (`Error::msg`) or a typed `ValidatorError` carried intact
(`Error::new` / `.into()`). -/
inductive AnyErr where
  | msg (s : Str)
  | typed (e : ValidatorError)
deriving Repr, DecidableEq

/-! ## Embedding of src/src/config.rs -/

/-- Embeds the `ValidatorConfig` struct of src/src/config.rs. -/
structure VConfig where
  container : Str
  script : Str
  execCommand : Option Str
deriving Repr, DecidableEq

/-- Embeds the `Config` struct of src/src/config.rs (the validator map is
modelled as an association list). -/
structure Config where
  validators : List (Str × VConfig)
  failFast : Bool
  fixturesDir : Option Str
deriving Repr, DecidableEq

/-- Embeds `Config::get_validator`. -/
def Config.getValidator (c : Config) (name : Str) : Except ValidatorError VConfig :=
  match c.validators.lookup name with
  | some v => .ok v
  | none => .error (.unknownValidator name)

/-- Embeds `ValidatorConfig::validate`. -/
def VConfig.validateValues (v : VConfig) (name : Str) : Except ValidatorError Unit :=
  if v.container.isEmpty then
    .error (.invalidConfig name "container cannot be empty".toList)
  else if v.script.isEmpty then
    .error (.invalidConfig name "script path cannot be empty".toList)
  else .ok ()

/-! ## Embedding of the dispatcher of src/src/preprocessor.rs

The sandbox platform (`ValidatorContainer`), the host filesystem and the
host script runner are external collaborators; their results enter the
model through an explicit environment record, and every sandbox operation
the dispatcher performs is recorded in an operation trace. -/

/-- An abstract sandbox session handle. -/
structure Container where
  cid : Nat
deriving Repr, DecidableEq

/-- The result of one exec step, as in src/src/container.rs. -/
structure ExecResult where
  exitCode : Int
  stdout : Str
  stderr : Str
deriving Repr, DecidableEq

/-- One observable side-effecting operation of the dispatcher. -/
inductive SbOp where
  | startContainer (image : Str)
  | execRaw (c : Container) (argv : List Str)
  | execStdin (c : Container) (argv : List Str) (stdin : Str)
  | validateCfg (name : Str)
  | checkFixtures
deriving Repr, DecidableEq

/-- The environment supplying results of all external operations. -/
structure Env where
  scriptExists : Str → Bool
  joinPath : Str → Str → Str
  pathIsAbsolute : Str → Bool
  fixturesExists : Str → Bool
  fixturesIsDir : Str → Bool
  canonicalizePath : Str → Except Str Str
  startRawWithMount : Str → Option (Str × Str) → Except Str Container
  execRaw : Container → List Str → Except Str ExecResult
  execStdin : Container → List Str → Str → Except Str ExecResult
  runHostValidator : Str → Str → Option Str → Option Str → Option Str → Except Str ExecResult

/-- The literal interior mount path `"/fixtures"`. -/
def fixturesMountPath : Str := "/fixtures".toList

/-- Embeds `get_exec_command` of src/src/preprocessor.rs. -/
def getExecCommand (validatorName : Str) (config : VConfig) : Str :=
  config.execCommand.getD
    (if validatorName = "sqlite".toList then "sqlite3 -json /tmp/test.db".toList
     else if validatorName = "osquery".toList then "osqueryi --json".toList
     else "cat".toList)

/-- Embeds `get_or_start_container` of src/src/preprocessor.rs: a cache
hit returns the stored session untouched; a miss looks up and validates
the configuration, resolves and checks the fixtures directory, starts the
sandbox, and inserts it into the cache.  The third component records the
operations performed. -/
def getOrStartContainer (env : Env) (config : Config) (bookRoot : Str)
    (containers : List (Str × Container)) (validatorName : Str) :
    Except AnyErr Container × List (Str × Container) × List SbOp :=
  match containers.lookup validatorName with
  | some c => (.ok c, containers, [])
  | none =>
    match config.getValidator validatorName with
    | .error e =>
      (.error (.msg ("Unknown validator '".toList ++ validatorName ++ "': ".toList ++
        e.display)), containers, [])
    | .ok vcfg =>
      match vcfg.validateValues validatorName with
      | .error e => (.error (.typed e), containers, [.validateCfg validatorName])
      | .ok _ =>
        let checkOps := [SbOp.validateCfg validatorName]
        match config.fixturesDir with
        | some fixturesDir =>
          let fixturesPath :=
            if env.pathIsAbsolute fixturesDir then fixturesDir
            else env.joinPath bookRoot fixturesDir
          let checkOps := checkOps ++ [SbOp.checkFixtures]
          if !env.fixturesExists fixturesPath then
            (.error (.msg ("fixtures_dir '".toList ++ fixturesPath ++
              "' does not exist".toList)), containers, checkOps)
          else if !env.fixturesIsDir fixturesPath then
            (.error (.msg ("fixtures_dir '".toList ++ fixturesPath ++
              "' is not a directory".toList)), containers, checkOps)
          else
            match env.canonicalizePath fixturesPath with
            | .error e =>
              (.error (.msg ("fixtures_dir '".toList ++ fixturesPath ++
                "' could not be canonicalized: ".toList ++ e)), containers, checkOps)
            | .ok canon =>
              match env.startRawWithMount vcfg.container (some (canon, fixturesMountPath)) with
              | .error e =>
                (.error (.msg ("Failed to start container '".toList ++ vcfg.container ++
                  "': ".toList ++ e)), containers,
                  checkOps ++ [.startContainer vcfg.container])
              | .ok c =>
                (.ok c, (validatorName, c) :: containers,
                  checkOps ++ [.startContainer vcfg.container])
        | none =>
          match env.startRawWithMount vcfg.container none with
          | .error e =>
            (.error (.msg ("Failed to start container '".toList ++ vcfg.container ++
              "': ".toList ++ e)), containers, checkOps ++ [.startContainer vcfg.container])
          | .ok c =>
            (.ok c, (validatorName, c) :: containers,
              checkOps ++ [.startContainer vcfg.container])

/-- The literal `["sh", "-c"]` argv head. -/
def shC : List Str := ["sh".toList, "-c".toList]

/-- Embeds `validate_block_host_based` of src/src/preprocessor.rs: verify
the script path, run SETUP, run the query with the validation content on
stdin, then run the host validator; classify each failure exactly as the
source does.  The second component records the sandbox operations
performed. -/
def validateBlockHostBased (env : Env) (vcfg : VConfig) (container : Container)
    (block : ValidatorBlock) (chapterName : Str) (bookRoot : Str) :
    Except AnyErr Unit × List SbOp :=
  let scriptPath := env.joinPath bookRoot vcfg.script
  if !env.scriptExists scriptPath then
    (.error (.msg ("Failed to read validator script '".toList ++ scriptPath ++
      "': file not found".toList)), [])
  else
    let execCmd := getExecCommand block.validatorName vcfg
    let setupStep : Except AnyErr Unit × List SbOp :=
      match block.markers.setup with
      | some setup =>
        let setupScript := rustTrim setup
        if !setupScript.isEmpty then
          match env.execRaw container (shC ++ [setupScript]) with
          | .error e =>
            (.error (.msg ("Setup exec failed: ".toList ++ e)),
              [.execRaw container (shC ++ [setupScript])])
          | .ok r =>
            if r.exitCode ≠ 0 then
              (.error (.typed (.setupFailed r.exitCode
                ("in '".toList ++ chapterName ++ "' (validator: ".toList ++
                  block.validatorName ++ "):\n\nScript:\n".toList ++ setupScript ++
                  "\n\nError:\n".toList ++ r.stderr))),
                [.execRaw container (shC ++ [setupScript])])
            else (.ok (), [.execRaw container (shC ++ [setupScript])])
        else (.ok (), [])
      | none => (.ok (), [])
    match setupStep with
    | (.error e, ops) => (.error e, ops)
    | (.ok _, setupOps) =>
      let querySql := rustTrim (validationContent block.markers)
      if querySql.isEmpty then
        (.error (.msg ("Validation failed in '".toList ++ chapterName ++
          "' (validator: ".toList ++ block.validatorName ++
          "): Query content is empty".toList)), setupOps)
      else
        let queryOp := SbOp.execStdin container (shC ++ [execCmd]) querySql
        match env.execStdin container (shC ++ [execCmd]) querySql with
        | .error e =>
          (.error (.msg ("Query exec failed: ".toList ++ e)), setupOps ++ [queryOp])
        | .ok queryResult =>
          if queryResult.exitCode ≠ 0 then
            (.error (.msg ("Query failed in '".toList ++ chapterName ++
              "' (validator: ".toList ++ block.validatorName ++ "):\n\nSQL:\n".toList ++
              querySql ++ "\n\nError:\n".toList ++ queryResult.stderr)),
              setupOps ++ [queryOp])
          else
            match env.runHostValidator scriptPath queryResult.stdout
                block.markers.assertions block.markers.expect (some queryResult.stderr) with
            | .error e =>
              (.error (.msg ("Host validator failed in '".toList ++ chapterName ++
                "' (validator: ".toList ++ block.validatorName ++ "): ".toList ++ e)),
                setupOps ++ [queryOp])
            | .ok validationResult =>
              if validationResult.exitCode ≠ 0 then
                let errorMsg :=
                  "in '".toList ++ chapterName ++ "' (validator: ".toList ++
                    block.validatorName ++ "):\n\nCode:\n".toList ++
                    block.markers.visibleContent ++ "\n".toList ++
                    (if !validationResult.stderr.isEmpty then
                      "\nValidator stderr:\n".toList ++ validationResult.stderr
                    else []) ++
                    (if !validationResult.stdout.isEmpty then
                      "\nValidator stdout:\n".toList ++ validationResult.stdout
                    else [])
                (.error (.typed (.validationFailed validationResult.exitCode errorMsg)),
                  setupOps ++ [queryOp])
              else (.ok (), setupOps ++ [queryOp])

/-- The per-block validation loop of `process_chapter_with_config`. -/
def processBlocksLoop (env : Env) (config : Config) (bookRoot chapterName : Str) :
    List ValidatorBlock → List (Str × Container) → List SbOp →
    Except AnyErr Unit × List (Str × Container) × List SbOp
  | [], containers, trace => (.ok (), containers, trace)
  | block :: rest, containers, trace =>
    if block.skip then processBlocksLoop env config bookRoot chapterName rest containers trace
    else
      match config.getValidator block.validatorName with
      | .error e =>
        (.error (.msg ("Unknown validator '".toList ++ block.validatorName ++
          "': ".toList ++ e.display)), containers, trace)
      | .ok vcfg =>
        match getOrStartContainer env config bookRoot containers block.validatorName with
        | (.error e, containers', ops) => (.error e, containers', trace ++ ops)
        | (.ok container, containers', ops) =>
          match validateBlockHostBased env vcfg container block chapterName bookRoot with
          | (.error e, ops2) => (.error e, containers', trace ++ ops ++ ops2)
          | (.ok _, ops2) =>
            processBlocksLoop env config bookRoot chapterName rest containers'
              (trace ++ ops ++ ops2)

/-- Embeds `process_chapter_with_config` of src/src/preprocessor.rs: empty
chapters and chapters without validator blocks are returned untouched;
a block with both `skip` and `hidden` aborts with the typed E011 error
before any dispatch; otherwise every block is dispatched in document order
and, on success, the chapter body is rewritten. -/
def processChapterWithConfig (env : Env) (config : Config) (bookRoot chapterName : Str)
    (containers : List (Str × Container)) (content : Str) :
    Except AnyErr Str × List (Str × Container) × List SbOp :=
  if content.isEmpty then (.ok content, containers, [])
  else
    let blocks := findValidatorBlocks content
    if blocks.isEmpty then (.ok content, containers, [])
    else if blocks.any (fun b => b.skip && b.hidden) then
      (.error (.typed .mutuallyExclusiveAttributes), containers, [])
    else
      match processBlocksLoop env config bookRoot chapterName blocks containers [] with
      | (.error e, containers', trace) => (.error e, containers', trace)
      | (.ok _, containers', trace) =>
        (.ok (stripMarkersFromChapter content), containers', trace)

/-! ## Sample values used by witnesses -/

/-- A sample validator definition. -/
def sampleVC : VConfig :=
  { container := "alpine:3".toList, script := "validators/v.sh".toList, execCommand := none }

/-- A sample configuration with one validator. -/
def sampleConfig : Config :=
  { validators := [("sqlite".toList, sampleVC)], failFast := true, fixturesDir := none }

/-- A sample environment in which every external operation succeeds. -/
def sampleEnv : Env :=
  { scriptExists := fun _ => true
    joinPath := fun a b => a ++ '/' :: b
    pathIsAbsolute := fun p => p.head? = some '/'
    fixturesExists := fun _ => true
    fixturesIsDir := fun _ => true
    canonicalizePath := fun p => .ok p
    startRawWithMount := fun _ _ => .ok ⟨0⟩
    execRaw := fun _ _ => .ok ⟨0, [], []⟩
    execStdin := fun _ _ _ => .ok ⟨0, "[]".toList, []⟩
    runHostValidator := fun _ _ _ _ _ => .ok ⟨0, [], []⟩ }

/-! ## Claim C4 -/

/-- An environment whose in-sandbox query step exits with code 1. -/
def c4Env : Env :=
  { sampleEnv with execStdin := fun _ _ _ => .ok ⟨1, [], "boom".toList⟩ }

/-- A plain validator block with visible content `SELECT 1;`. -/
def c4Block : ValidatorBlock :=
  { validatorName := "sqlite".toList
    markers := { visibleContent := "SELECT 1;".toList }
    skip := false
    hidden := false }

/-! ## Stage view of extract_markers

`extract_markers` runs three `extract_marker_block` passes, each on the
residue of the previous one.  `excise` is the residue of one pass. -/

/-- The residue of one `extract_marker_block` pass: `before ++ after` when
the marker is extracted, the input unchanged otherwise. -/
def excise (body tag : Str) : Str :=
  match extractMarkerBlock body tag with
  | some (b, _, a) => b ++ a
  | none => body

/-- The residue after the SETUP pass of `extract_markers`. -/
def remAfterSetup (body : Str) : Str := excise body setupTag

/-- The residue after the ASSERT pass of `extract_markers`. -/
def remAfterAssert (body : Str) : Str := excise (remAfterSetup body) assertTag

/-- The residue after the EXPECT pass of `extract_markers`. -/
def remAfterExpect (body : Str) : Str := excise (remAfterAssert body) expectTag

/-! ## Claim C3: line structure of validation content -/

/-- The per-line map of `strip_double_at_prefix`. -/
def stripAtFn (l : Str) : Str := (stripPfx atAtTok l).getD l

/-- Remove one trailing carriage return. -/
def stripCR (l : Str) : Str := if l.getLast? = some '\r' then l.dropLast else l

/-- Drop a final empty line from a line list. -/
def dropLastEmpty (ls : List Str) : List Str :=
  match ls.getLast? with
  | some [] => ls.dropLast
  | _ => ls

/-- The well-formedness carried for the optional open-fence state of the
scanner: the opening offset lies at a line start between the chain cursor
and the current offset, with the content start just past it. -/
def stInv (content : Str) (off pos : Nat) : Option (Nat × Str × Nat) → Prop
  | none => pos ≤ off
  | some (os, _, cs) =>
    pos ≤ os ∧ os < cs ∧ cs ≤ off ∧ (os = 0 ∨ content[os - 1]? = some '\n')

/-- A concrete chapter with a hidden fence, for the C1 witness. -/
def c1Content : Str := "a\n\x60\x60\x60x hidden\nbody\n\x60\x60\x60\nz".toList

/-- The hidden fenced block of `c1Content`. -/
def c1Block : FencedBlock := ⟨"x hidden".toList, 2, 14, 19, 22⟩

/-- Absence of a run of three consecutive newlines. -/
def noTriple (t : Str) : Prop := ¬ (['\n', '\n', '\n'] <:+: t)

/-! ## Theorems -/

/-! Sanity checks mirroring the unit tests of src/src/parser.rs. -/

example : parseInfoString "sql validator=sqlite".toList =
    ("sql".toList, some "sqlite".toList, false) := by decide

example : parseInfoString "sql validator=osquery skip".toList =
    ("sql".toList, some "osquery".toList, true) := by decide

example : parseInfoString "sql validator=".toList = ("sql".toList, none, false) := by
  decide

example : parseInfoString "sql validator=first validator=second".toList =
    ("sql".toList, some "first".toList, false) := by decide

example : (parseInfoString4 "sql validator=sqlite hidden".toList).hidden = true := by
  decide

example : stripDoubleAt "@@SELECT 1;\nSELECT 2;".toList =
    "SELECT 1;\nSELECT 2;".toList := by decide

example : stripDoubleAt "@@@@foo".toList = "@@foo".toList := by decide

example : stripDoubleAt "line with @@ in middle".toList =
    "line with @@ in middle".toList := by decide

example : extractMarkers "<!--SETUP\nCREATE TABLE test;\n-->\nSELECT * FROM test;".toList =
    { setup := some "CREATE TABLE test;".toList
      visibleContent := "SELECT * FROM test;".toList } := by decide

example : extractMarkers "SELECT * FROM test;\n<!--ASSERT\nrows >= 1\n-->".toList =
    { assertions := some "rows >= 1".toList
      visibleContent := "SELECT * FROM test;".toList } := by decide

/-! ## Lemmas about substring search -/

theorem findSubstrAux_shift (pat : Str) (s : Str) (i : Nat) :
    findSubstrAux pat s (i + 1) = (findSubstrAux pat s i).map (· + 1) := by
  induction s generalizing i with
  | nil =>
    simp only [findSubstrAux]
    split <;> simp
  | cons c rest ih =>
    simp only [findSubstrAux]
    split <;> simp [ih]

theorem findSubstr_cons (pat : Str) (c : Char) (s : Str) :
    findSubstr pat (c :: s) =
      if pat.isPrefixOf (c :: s) then some 0 else (findSubstr pat s).map (· + 1) := by
  show findSubstrAux pat (c :: s) 0 = _
  simp only [findSubstrAux]
  split
  · rfl
  · exact findSubstrAux_shift pat s 0

theorem findSubstr_some_le {pat s : Str} {i : Nat} (h : findSubstr pat s = some i) :
    i ≤ s.length := by
  induction s generalizing i with
  | nil =>
    simp only [findSubstr, findSubstrAux] at h
    split at h <;> simp_all
  | cons c rest ih =>
    rw [findSubstr_cons] at h
    split at h
    · simp only [Option.some.injEq] at h
      omega
    · obtain ⟨j, hj, rfl⟩ := Option.map_eq_some'.mp h
      simpa using Nat.succ_le_succ (ih hj)

theorem findSubstr_some_occurs {pat s : Str} {i : Nat} (h : findSubstr pat s = some i) :
    pat <+: s.drop i := by
  induction s generalizing i with
  | nil =>
    simp only [findSubstr, findSubstrAux] at h
    split at h
    · simp_all [List.isEmpty_iff]
    · exact absurd h (by simp)
  | cons c rest ih =>
    rw [findSubstr_cons] at h
    split at h
    · obtain rfl := Option.some.inj h
      simpa [List.isPrefixOf_iff_prefix] using ‹pat.isPrefixOf (c :: rest) = true›
    · obtain ⟨j, hj, rfl⟩ := Option.map_eq_some'.mp h
      simpa using ih hj

theorem findSubstr_some_min {pat s : Str} {i : Nat} (h : findSubstr pat s = some i) :
    ∀ j, j < i → ¬ pat <+: s.drop j := by
  induction s generalizing i with
  | nil =>
    simp only [findSubstr, findSubstrAux] at h
    split at h
    · simp only [Option.some.injEq] at h
      intro j hj
      omega
    · exact absurd h (by simp)
  | cons c rest ih =>
    rw [findSubstr_cons] at h
    split at h
    · simp only [Option.some.injEq] at h
      intro j hj
      omega
    · obtain ⟨j', hj', rfl⟩ := Option.map_eq_some'.mp h
      intro j hj hpre
      match j with
      | 0 =>
        simp only [List.drop_zero] at hpre
        simp_all [List.isPrefixOf_iff_prefix]
      | j + 1 =>
        exact ih hj' j (by omega) (by simpa using hpre)

theorem findSubstr_none {pat s : Str} (h : findSubstr pat s = none) :
    ∀ j, ¬ pat <+: s.drop j := by
  induction s with
  | nil =>
    simp only [findSubstr, findSubstrAux] at h
    split at h
    · exact absurd h (by simp)
    · intro j hpre
      simp only [List.drop_nil] at hpre
      simp_all [List.isEmpty_iff, List.prefix_nil.mp hpre]
  | cons c rest ih =>
    rw [findSubstr_cons] at h
    split at h
    · exact absurd h (by simp)
    · intro j hpre
      match j with
      | 0 =>
        simp only [List.drop_zero] at hpre
        simp_all [List.isPrefixOf_iff_prefix]
      | j + 1 =>
        exact ih (by simpa using h) j (by simpa using hpre)

theorem findSubstr_isSome_of_occurs {pat s : Str} {j : Nat} (h : pat <+: s.drop j) :
    ∃ i, findSubstr pat s = some i ∧ i ≤ j := by
  match hf : findSubstr pat s with
  | none => exact absurd h (findSubstr_none hf j)
  | some i =>
    refine ⟨i, rfl, ?_⟩
    by_contra hc
    exact findSubstr_some_min hf j (by omega) h

theorem occurs_bound {pat s : Str} {i : Nat} (h : pat <+: s.drop i) (hp : pat ≠ []) :
    i + pat.length ≤ s.length := by
  have hlen : pat.length ≤ (s.drop i).length := h.length_le
  have hi : i ≤ s.length := by
    by_contra hc
    push_neg at hc
    have hnil : s.drop i = [] := List.drop_eq_nil_of_le (by omega)
    rw [hnil] at h
    exact hp (List.prefix_nil.mp h)
  rw [List.length_drop] at hlen
  omega

/-! Sanity checks mirroring the unit tests of src/src/transpiler.rs. -/

example : stripMarkers "<!--SETUP\nCREATE TABLE t;\n-->\nSELECT * FROM t;".toList =
    "SELECT * FROM t;".toList := by decide

example : stripMarkers "SELECT 1;\n@@hidden".toList = "SELECT 1;".toList := by decide

example :
    stripMarkers "<!--SETUP\nCREATE TABLE t;\n-->\n<!--ASSERT\nrows >= 1\n-->".toList =
      [] := by decide

example : stripMarkerBlock "before\n<!--SETUP\nno end marker".toList setupTag =
    "before\n<!--SETUP\nno end marker".toList := by decide

/-! Sanity checks mirroring the unit tests of src/src/preprocessor.rs. -/

example :
    stripMarkersFromChapter
        "Some text\n\n\x60\x60\x60sql validator=sqlite hidden\nSELECT 1;\n\x60\x60\x60\n\nMore text".toList =
      "Some text\n\nMore text".toList := by decide

example :
    stripMarkersFromChapter
        "Some text\n\n\x60\x60\x60sql validator=sqlite\nSELECT 1;\n\x60\x60\x60\n\nMore text".toList =
      "Some text\n\n\x60\x60\x60sql validator=sqlite\nSELECT 1;\n\x60\x60\x60\n\nMore text".toList := by
  decide

example :
    stripMarkersFromChapter
        "Text\n\n\x60\x60\x60sql validator=sqlite\n<!--SETUP\nCREATE TABLE t;\n-->\nSELECT 1;\n\x60\x60\x60\n\nMore text".toList =
      "Text\n\n\x60\x60\x60sql validator=sqlite\nSELECT 1;\n\x60\x60\x60\n\nMore text".toList := by
  decide

example :
    (findValidatorBlocks
        "\x60\x60\x60sql validator=sqlite hidden\nSELECT 1;\n\x60\x60\x60\n".toList).map
        (fun b => (b.validatorName, b.skip, b.hidden)) =
      [("sqlite".toList, false, true)] := by decide

theorem rfindCh_none_spec {c : Char} {s : Str} (h : rfindCh c s = none) :
    ∀ j : Nat, s[j]? ≠ some c := by
  induction s with
  | nil => intro j; simp
  | cons d t ih =>
    rw [rfindCh] at h
    cases ht : rfindCh c t with
    | some i => rw [ht] at h; exact absurd h (by simp)
    | none =>
      rw [ht] at h
      by_cases hd : d = c
      · rw [if_pos hd] at h; exact absurd h (by simp)
      · intro j
        match j with
        | 0 => simpa using hd
        | j + 1 => simpa using ih ht j

theorem rfindCh_some_spec {c : Char} {s : Str} {i : Nat} (h : rfindCh c s = some i) :
    s[i]? = some c ∧ ∀ j : Nat, i < j → s[j]? ≠ some c := by
  induction s generalizing i with
  | nil => exact absurd h (by simp [rfindCh])
  | cons d t ih =>
    rw [rfindCh] at h
    cases ht : rfindCh c t with
    | some k =>
      rw [ht] at h
      obtain rfl : k + 1 = i := Option.some.inj h
      obtain ⟨h1, h2⟩ := ih ht
      refine ⟨by simpa using h1, ?_⟩
      intro j hj
      match j with
      | 0 => omega
      | j + 1 => simpa using h2 j (by omega)
    | none =>
      rw [ht] at h
      by_cases hd : d = c
      · rw [if_pos hd] at h
        obtain rfl : (0 : Nat) = i := Option.some.inj h
        refine ⟨by simpa using hd, ?_⟩
        intro j hj
        match j with
        | 0 => omega
        | j + 1 => simpa using rfindCh_none_spec ht j
      · rw [if_neg hd] at h
        exact absurd h (by simp)

theorem rfindCh_last {c : Char} {s : Str} {i : Nat} (hi : s[i]? = some c)
    (hmax : ∀ j : Nat, i < j → s[j]? ≠ some c) : rfindCh c s = some i := by
  cases hr : rfindCh c s with
  | none => exact absurd hi (rfindCh_none_spec hr i)
  | some k =>
    obtain ⟨h1, h2⟩ := rfindCh_some_spec hr
    rcases Nat.lt_trichotomy i k with hik | rfl | hik
    · exact absurd h1 (hmax k hik)
    · rfl
    · exact absurd hi (h2 i hik)

/-- Equation form of `lineStartBefore` when no newline precedes `p`. -/
theorem lineStartBefore_eq_none {content : Str} {p : Nat}
    (hr : rfindCh '\n' (content.take p) = none) : lineStartBefore content p = 0 := by
  unfold lineStartBefore
  rw [hr]

/-- Equation form of `lineStartBefore` when a newline precedes `p`. -/
theorem lineStartBefore_eq_some {content : Str} {p i : Nat}
    (hr : rfindCh '\n' (content.take p) = some i) :
    lineStartBefore content p = i + 1 := by
  unfold lineStartBefore
  rw [hr]

/-- Equation form of `lineEndAfter` when no newline follows `p`. -/
theorem lineEndAfter_eq_none {content : Str} {p : Nat}
    (hf : findCh '\n' (content.drop p) = none) : lineEndAfter content p = p := by
  unfold lineEndAfter
  rw [hf]

/-- Equation form of `lineEndAfter` when a newline follows `p`. -/
theorem lineEndAfter_eq_some {content : Str} {p i : Nat}
    (hf : findCh '\n' (content.drop p) = some i) :
    lineEndAfter content p = p + i + 1 := by
  unfold lineEndAfter
  rw [hf]

/-- Characterization of `lineStartBefore`: it is at most `p`, sits just
after a newline (or at offset 0), and no newline lies between it and `p`. -/
theorem lineStartBefore_spec (content : Str) (p : Nat) :
    lineStartBefore content p ≤ p ∧
    (lineStartBefore content p = 0 ∨
      content[lineStartBefore content p - 1]? = some '\n') ∧
    ∀ j : Nat, lineStartBefore content p ≤ j → j < p → content[j]? ≠ some '\n' := by
  cases hr : rfindCh '\n' (content.take p) with
  | none =>
    rw [lineStartBefore_eq_none hr]
    refine ⟨Nat.zero_le p, Or.inl rfl, ?_⟩
    intro j _ hjp hcc
    have : (content.take p)[j]? = some '\n' := by
      rw [List.getElem?_take]; simp [hjp, hcc]
    exact rfindCh_none_spec hr j this
  | some i =>
    rw [lineStartBefore_eq_some hr]
    obtain ⟨h1, h2⟩ := rfindCh_some_spec hr
    have hilen : i < (content.take p).length := (List.getElem?_eq_some.mp h1).1
    have hip : i < p := lt_of_lt_of_le hilen (by simp [List.length_take])
    refine ⟨hip, Or.inr ?_, ?_⟩
    · have heq : (content.take p)[i]? = content[i]? := by
        rw [List.getElem?_take]; simp [hip]
      simpa [heq] using h1
    · intro j hj hjp hcc
      have : (content.take p)[j]? = some '\n' := by
        rw [List.getElem?_take]; simp [hjp, hcc]
      exact h2 j (by omega) this

theorem lineStartBefore_zero (content : Str) : lineStartBefore content 0 = 0 := rfl

/-- When `p` sits just after a newline, the line containing `p` starts at
`p` itself. -/
theorem lineStartBefore_of_newline_at {content : Str} {p : Nat} (hp : 0 < p)
    (h : content[p - 1]? = some '\n') : lineStartBefore content p = p := by
  have hlt : p - 1 < content.length := (List.getElem?_eq_some.mp h).1
  have hocc : (content.take p)[p - 1]? = some '\n' := by
    rw [List.getElem?_take]; simp [Nat.sub_lt hp Nat.one_pos, h]
  have hmax : ∀ j : Nat, p - 1 < j → (content.take p)[j]? ≠ some '\n' := by
    intro j hj hcc
    have : j < (content.take p).length := (List.getElem?_eq_some.mp hcc).1
    rw [List.length_take] at this
    omega
  rw [lineStartBefore_eq_some (rfindCh_last hocc hmax)]
  omega

/-- `lineEndAfter` never retreats. -/
theorem lineEndAfter_ge (content : Str) (p : Nat) : p ≤ lineEndAfter content p := by
  cases hf : findCh '\n' (content.drop p) with
  | none => rw [lineEndAfter_eq_none hf]
  | some i => rw [lineEndAfter_eq_some hf]; omega

/-- `lineEndAfter` stays within the content when `p` does. -/
theorem lineEndAfter_le_length {content : Str} {p : Nat} (hp : p ≤ content.length) :
    lineEndAfter content p ≤ content.length := by
  cases hf : findCh '\n' (content.drop p) with
  | none => rw [lineEndAfter_eq_none hf]; exact hp
  | some i =>
    rw [lineEndAfter_eq_some hf]
    have hocc := findSubstr_some_occurs hf
    have := occurs_bound hocc (by simp)
    rw [List.length_drop] at this
    simp only [List.length_cons, List.length_nil] at this
    omega

/-- Characterization of `lineEndAfter`: either no newline follows `p` and
it returns `p`, or it returns one past the first newline at or after `p`. -/
theorem lineEndAfter_spec (content : Str) (p : Nat) :
    (lineEndAfter content p = p ∧ ∀ j : Nat, p ≤ j → content[j]? ≠ some '\n') ∨
    (p < lineEndAfter content p ∧
      content[lineEndAfter content p - 1]? = some '\n' ∧
      ∀ j : Nat, p ≤ j → j < lineEndAfter content p - 1 →
        content[j]? ≠ some '\n') := by
  cases hf : findCh '\n' (content.drop p) with
  | none =>
    rw [lineEndAfter_eq_none hf]
    refine Or.inl ⟨rfl, ?_⟩
    intro j hj hcc
    have hjl : j < content.length := (List.getElem?_eq_some.mp hcc).1
    apply findSubstr_none hf (j - p)
    have hdrop : (content.drop p).drop (j - p) = content.drop j := by
      rw [List.drop_drop]
      congr 1
      omega
    rw [hdrop, List.drop_eq_getElem_cons hjl]
    have hcn : content[j] = '\n' := by
      have hg := List.getElem?_eq_getElem (l := content) hjl
      rw [hg] at hcc
      exact Option.some.inj hcc
    rw [hcn]
    exact ⟨content.drop (j + 1), rfl⟩
  | some i =>
    rw [lineEndAfter_eq_some hf]
    have hocc := findSubstr_some_occurs hf
    have hmin := findSubstr_some_min hf
    refine Or.inr ⟨by omega, ?_, ?_⟩
    · rw [List.drop_drop] at hocc
      obtain ⟨t, ht⟩ := hocc
      have hpt : content[p + i]? = some '\n' := by
        have hg := List.getElem?_drop content (p + i) 0
        rw [← ht] at hg
        simpa using hg.symm
      have harith : p + i + 1 - 1 = p + i := by omega
      rw [harith]
      exact hpt
    · intro j hj hjlt hcc
      have hjl : j < content.length := (List.getElem?_eq_some.mp hcc).1
      apply hmin (j - p) (by omega)
      have hdrop : (content.drop p).drop (j - p) = content.drop j := by
        rw [List.drop_drop]
        congr 1
        omega
      rw [hdrop, List.drop_eq_getElem_cons hjl]
      have hcn : content[j] = '\n' := by
        have hg := List.getElem?_eq_getElem (l := content) hjl
        rw [hg] at hcc
        exact Option.some.inj hcc
      rw [hcn]
      exact ⟨content.drop (j + 1), rfl⟩

/-- A newline at `p` itself makes `lineEndAfter` return `p + 1`. -/
theorem lineEndAfter_of_newline_at {content : Str} {p : Nat}
    (h : content[p]? = some '\n') : lineEndAfter content p = p + 1 := by
  have hlt : p < content.length := (List.getElem?_eq_some.mp h).1
  have hdrop : content.drop p = '\n' :: content.drop (p + 1) := by
    rw [List.drop_eq_getElem_cons hlt]
    have hg := List.getElem?_eq_getElem (l := content) hlt
    rw [hg] at h
    rw [Option.some.inj h]
  have hf : findCh '\n' (content.drop p) = some 0 := by
    rw [hdrop, findCh, findSubstr_cons]
    simp [List.isPrefixOf]
  rw [lineEndAfter_eq_some hf]

/-- Past the end of the content, `lineEndAfter` is the identity. -/
theorem lineEndAfter_of_eof {content : Str} {p : Nat}
    (h : content.length ≤ p) : lineEndAfter content p = p := by
  apply lineEndAfter_eq_none
  rw [List.drop_eq_nil_of_le h]
  rfl

/-- `applyEdit` in take/replacement/drop form. -/
theorem applyEdit_eq (content : Str) (e : Edit) :
    applyEdit content e =
      content.take e.startOf ++ e.replOf ++ content.drop e.stopOf := by
  cases e <;> simp [applyEdit, Edit.startOf, Edit.stopOf, Edit.replOf]

/-- A chained cursor never passes the content length. -/
theorem chainOk_le {len : Nat} :
    ∀ {es : List Edit} {pos : Nat}, chainOk len pos es → pos ≤ len := by
  intro es
  cases es with
  | nil => intro pos h; exact h
  | cons e rest => intro pos h; obtain ⟨h1, h2, h3, -⟩ := h; omega

/-- `chainOk` is monotone in the cursor. -/
theorem chainOk_mono {len p q : Nat} {es : List Edit} (hpq : p ≤ q)
    (h : chainOk len q es) : chainOk len p es := by
  cases es with
  | nil => exact le_trans hpq h
  | cons e rest => obtain ⟨h1, h2, h3, h4⟩ := h; exact ⟨le_trans hpq h1, h2, h3, h4⟩

/-- Every edit of a chain starts at or after the cursor. -/
theorem chainOk_start_le {len : Nat} :
    ∀ {es : List Edit} {pos : Nat}, chainOk len pos es →
      ∀ e ∈ es, pos ≤ e.startOf := by
  intro es
  induction es with
  | nil => intro pos _ e he; exact absurd he (List.not_mem_nil e)
  | cons e0 rest ih =>
    intro pos h e he
    obtain ⟨h1, h2, h3, h4⟩ := h
    rcases List.mem_cons.mp he with rfl | he'
    · exact h1
    · have := ih h4 e he'
      omega

/-- A chained edit list has strictly ascending start offsets. -/
theorem chainOk_pairwise {len : Nat} :
    ∀ {es : List Edit} {pos : Nat}, chainOk len pos es →
      List.Pairwise (fun a b : Edit => a.startOf < b.startOf) es := by
  intro es
  induction es with
  | nil => intro pos _; exact List.Pairwise.nil
  | cons e0 rest ih =>
    intro pos h
    obtain ⟨h1, h2, h3, h4⟩ := h
    refine List.Pairwise.cons ?_ (ih h4)
    intro b hb
    have := chainOk_start_le h4 b hb
    omega

/-- Inserting an edit smaller than every element of a descending list
appends it at the end. -/
theorem insertDesc_of_lt (e : Edit) :
    ∀ l : List Edit, (∀ x ∈ l, e.startOf < x.startOf) →
      insertDesc e l = l ++ [e] := by
  intro l
  induction l with
  | nil => intro _; rfl
  | cons x xs ih =>
    intro h
    have hx : ¬ x.startOf ≤ e.startOf := by
      have := h x (List.mem_cons_self x xs)
      omega
    simp only [insertDesc, if_neg hx, List.cons_append]
    rw [ih (fun y hy => h y (List.mem_cons_of_mem x hy))]

/-- On a strictly ascending edit list, the descending sort is reversal. -/
theorem sortByStartDesc_eq_reverse :
    ∀ {es : List Edit},
      List.Pairwise (fun a b : Edit => a.startOf < b.startOf) es →
      sortByStartDesc es = es.reverse := by
  intro es
  induction es with
  | nil => intro _; rfl
  | cons e rest ih =>
    intro h
    rw [List.pairwise_cons] at h
    simp only [sortByStartDesc]
    rw [ih h.2, insertDesc_of_lt e _ (fun x hx => h.1 x (List.mem_reverse.mp hx)),
      List.reverse_cons]

/-- Applying a chained edit list in descending order renders it in
ascending order: each edit finds the untouched prefix it addresses. -/
theorem foldl_applyL_reverse {α : Type} (base : List α) (repl : Edit → List α) :
    ∀ (es : List Edit) (pos : Nat), chainOk base.length pos es →
      es.reverse.foldl
          (fun acc e => acc.take e.startOf ++ repl e ++ acc.drop e.stopOf) base =
        base.take pos ++ renderAscL base repl pos es := by
  intro es
  induction es with
  | nil =>
    intro pos _
    simp [renderAscL]
  | cons e rest ih =>
    intro pos h
    obtain ⟨h1, h2, h3, h4⟩ := h
    rw [List.reverse_cons, List.foldl_append, List.foldl_cons, List.foldl_nil,
      ih e.stopOf h4]
    have htake1 : (base.take e.stopOf ++ renderAscL base repl e.stopOf rest).take
        e.startOf = base.take e.startOf := by
      rw [List.take_append_of_le_length (by simp [List.length_take]; omega),
        List.take_take, Nat.min_eq_left (by omega)]
    have hlen : (base.take e.stopOf).length = e.stopOf := by
      simp [List.length_take]; omega
    have hdrop1 : (base.take e.stopOf ++ renderAscL base repl e.stopOf rest).drop
        e.stopOf = renderAscL base repl e.stopOf rest := by
      have hdl := List.drop_left (base.take e.stopOf)
        (renderAscL base repl e.stopOf rest)
      rwa [hlen] at hdl
    rw [htake1, hdrop1]
    have hsplit : base.take e.startOf =
        base.take pos ++ (base.take e.startOf).drop pos := by
      conv_lhs => rw [← List.take_append_drop pos (base.take e.startOf)]
      rw [List.take_take, Nat.min_eq_left h1]
    rw [hsplit]
    simp [renderAscL]

/-- Rendering commutes with mapping the base and the replacements. -/
theorem renderAscL_map {α β : Type} (f : α → β) (base : List α)
    (replA : Edit → List α) (replB : Edit → List β)
    (hrepl : ∀ e, (replA e).map f = replB e) :
    ∀ (es : List Edit) (pos : Nat),
      (renderAscL base replA pos es).map f =
        renderAscL (base.map f) replB pos es := by
  intro es
  induction es with
  | nil => intro pos; simp [renderAscL, List.map_drop]
  | cons e rest ih =>
    intro pos
    simp [renderAscL, List.map_drop, List.map_take, hrepl, ih]

/-- Dropping the annotations recovers the chapter characters. -/
theorem annotChars_map_snd (s : Str) : (annotChars s).map Prod.snd = s := by
  simp [annotChars, List.map_map]
  exact List.enum_map_snd s

/-- The annotated chapter pairs each character with its offset. -/
theorem annotChars_getElem (s : Str) (i : Nat) :
    (annotChars s)[i]? = (s[i]?).map (fun c => (some i, c)) := by
  simp [annotChars, List.getElem?_enum]
  cases s[i]? <;> rfl

/-- An annotated character found in a slice of the annotated chapter
carries an origin inside the slice bounds. -/
theorem mem_annot_slice {s : Str} {a b p : Nat} {ch : Char}
    (h : (some p, ch) ∈ ((annotChars s).take b).drop a) : a ≤ p ∧ p < b := by
  obtain ⟨k, hk⟩ := List.mem_iff_getElem?.mp h
  rw [List.getElem?_drop, List.getElem?_take] at hk
  by_cases hab : a + k < b
  · rw [if_pos hab, annotChars_getElem] at hk
    cases hsk : s[a + k]? with
    | none => rw [hsk] at hk; exact absurd hk (by simp)
    | some c =>
      rw [hsk] at hk
      simp only [Option.map_some', Option.some.injEq, Prod.mk.injEq] at hk
      obtain ⟨hk1, -⟩ := hk
      obtain rfl : a + k = p := hk1
      omega
  · rw [if_neg hab] at hk
    exact absurd hk (by simp)

/-- An annotated character found past a cursor in the annotated chapter
has an origin at or past the cursor. -/
theorem mem_annot_drop {s : Str} {a p : Nat} {ch : Char}
    (h : (some p, ch) ∈ (annotChars s).drop a) : a ≤ p := by
  obtain ⟨k, hk⟩ := List.mem_iff_getElem?.mp h
  rw [List.getElem?_drop, annotChars_getElem] at hk
  cases hsk : s[a + k]? with
  | none => rw [hsk] at hk; exact absurd hk (by simp)
  | some c =>
    rw [hsk] at hk
    simp only [Option.map_some', Option.some.injEq, Prod.mk.injEq] at hk
    obtain ⟨hk1, -⟩ := hk
    obtain rfl : a + k = p := hk1
    omega

/-- Fresh replacement text never carries an origin. -/
theorem not_mem_annRepl {e : Edit} {p : Nat} {ch : Char} :
    (some p, ch) ∉ annRepl e := by
  intro h
  simp only [annRepl, List.mem_map] at h
  obtain ⟨c, -, hc⟩ := h
  exact absurd (congrArg Prod.fst hc) (by simp)

/-- Every annotated character of a rendered chain originates at or past
the cursor. -/
theorem renderAscA_origin_ge (content : Str) :
    ∀ (es : List Edit) (pos p : Nat) (ch : Char),
      chainOk content.length pos es →
      (some p, ch) ∈ renderAscL (annotChars content) annRepl pos es →
      pos ≤ p := by
  intro es
  induction es with
  | nil =>
    intro pos p ch _ hmem
    exact mem_annot_drop hmem
  | cons e rest ih =>
    intro pos p ch h hmem
    obtain ⟨h1, h2, h3, h4⟩ := h
    simp only [renderAscL, List.mem_append] at hmem
    rcases hmem with (hs | hr) | hrest
    · exact (mem_annot_slice hs).1
    · exact absurd hr not_mem_annRepl
    · have := ih e.stopOf p ch h4 hrest
      omega

/-- No annotated character of a rendered chain originates inside the
range of any edit of the chain. -/
theorem renderAscA_origin_excluded (content : Str) :
    ∀ (es : List Edit) (pos : Nat) (e : Edit),
      chainOk content.length pos es → e ∈ es →
      ∀ (p : Nat) (ch : Char), e.startOf ≤ p → p < e.stopOf →
        (some p, ch) ∉ renderAscL (annotChars content) annRepl pos es := by
  intro es
  induction es with
  | nil =>
    intro pos e _ he
    exact absurd he (List.not_mem_nil e)
  | cons e0 rest ih =>
    intro pos e h he p ch hp1 hp2 hmem
    obtain ⟨h1, h2, h3, h4⟩ := h
    simp only [renderAscL, List.mem_append] at hmem
    rcases List.mem_cons.mp he with rfl | he'
    · rcases hmem with (hs | hr) | hrest
      · have := (mem_annot_slice hs).2
        omega
      · exact absurd hr not_mem_annRepl
      · have := renderAscA_origin_ge content rest e.stopOf p ch h4 hrest
        omega
    · rcases hmem with (hs | hr) | hrest
      · have hb := (mem_annot_slice hs).2
        have := chainOk_start_le h4 e he'
        omega
      · exact absurd hr not_mem_annRepl
      · exact ih e0.stopOf e h4 he' p ch hp1 hp2 hrest

/-- The newline-collapsing fold only removes characters. -/
theorem normalizeNl_sublist :
    ∀ (s : Str) (k : Nat), List.Sublist (normalizeNl s k) s := by
  intro s
  induction s with
  | nil => intro k; simp [normalizeNl]
  | cons c rest ih =>
    intro k
    simp only [normalizeNl]
    by_cases hc : c = '\n'
    · rw [if_pos hc]
      by_cases hk : k + 1 ≤ 2
      · rw [if_pos hk]
        exact List.Sublist.cons₂ c (ih (k + 1))
      · rw [if_neg hk]
        exact List.Sublist.cons c (ih (k + 1))
    · rw [if_neg hc]
      exact List.Sublist.cons₂ c (ih 0)

/-- Applying the sorted edits of a chain equals rendering it ascending. -/
theorem applyEdits_eq_renderAsc (content : Str) {es : List Edit}
    (h : chainOk content.length 0 es) :
    (sortByStartDesc es).foldl applyEdit content =
      renderAscL content Edit.replOf 0 es := by
  rw [sortByStartDesc_eq_reverse (chainOk_pairwise h)]
  have hfun : applyEdit = fun (acc : Str) (e : Edit) =>
      acc.take e.startOf ++ Edit.replOf e ++ acc.drop e.stopOf := by
    funext acc e
    exact applyEdit_eq acc e
  rw [hfun, foldl_applyL_reverse content Edit.replOf es 0 h]
  simp

/-- The chapter rewriter as normalization of the ascending rendering. -/
theorem strip_eq_renderAsc (content : Str)
    (h : chainOk content.length 0 (editsOf content)) :
    stripMarkersFromChapter content =
      normalizeBlankLines (renderAscL content Edit.replOf 0 (editsOf content)) := by
  unfold stripMarkersFromChapter
  rw [applyEdits_eq_renderAsc content h]

/-- Projecting the annotated rendering recovers the plain rendering. -/
theorem renderAsc_proj (content : Str) (es : List Edit) (pos : Nat) :
    (renderAscL (annotChars content) annRepl pos es).map Prod.snd =
      renderAscL content Edit.replOf pos es := by
  rw [renderAscL_map Prod.snd (annotChars content) annRepl Edit.replOf
    (fun e => by simp [annRepl, List.map_map]) es pos, annotChars_map_snd]

/-! ## Claim C5 -/

/-- C5: the info-string attributes destructured by the preprocessor have
the `hidden` flag set exactly when some whitespace-separated token of the
info string is the literal word `hidden`. -/
theorem c5_hidden_token (info : Str) :
    (parseInfoString4 info).hidden = true ↔ hiddenTok ∈ splitWhitespace info := by
  show (splitWhitespace info).contains hiddenTok = true ↔ _
  simp [List.contains, List.elem_iff]

/-! ## Claim C10 -/

/-- C10: when the sandbox cache already holds a session for a validator
name, `get_or_start_container` returns that session with the cache
untouched and performs no operation at all (in particular no configuration
validation and no fixtures check); and a successful cache miss inserts the
started session under the name, so any later request is a hit. -/
theorem c10_cache_hit_no_ops (env : Env) (config : Config) (bookRoot : Str)
    (containers : List (Str × Container)) (name : Str) :
    (∀ c, containers.lookup name = some c →
      getOrStartContainer env config bookRoot containers name = (.ok c, containers, [])) ∧
    (∀ c containers' ops, containers.lookup name = none →
      getOrStartContainer env config bookRoot containers name = (.ok c, containers', ops) →
      containers'.lookup name = some c) := by
  constructor
  · intro c h
    unfold getOrStartContainer
    rw [h]
  · intro c containers' ops h hres
    unfold getOrStartContainer at hres
    rw [h] at hres
    dsimp only at hres
    cases hgv : config.getValidator name with
    | error e =>
      rw [hgv] at hres; try dsimp only at hres
      exact absurd (congrArg Prod.fst hres) (by simp)
    | ok vcfg =>
      rw [hgv] at hres; try dsimp only at hres
      cases hvv : vcfg.validateValues name with
      | error e =>
        rw [hvv] at hres; try dsimp only at hres
        exact absurd (congrArg Prod.fst hres) (by simp)
      | ok u =>
        rw [hvv] at hres; try dsimp only at hres
        cases hfd : config.fixturesDir with
        | none =>
          rw [hfd] at hres; try dsimp only at hres
          cases hst : env.startRawWithMount vcfg.container none with
          | error e =>
            rw [hst] at hres; try dsimp only at hres
            exact absurd (congrArg Prod.fst hres) (by simp)
          | ok c0 =>
            rw [hst] at hres; try dsimp only at hres
            simp only [Prod.mk.injEq] at hres
            obtain ⟨h1, h2, h3⟩ := hres
            obtain rfl := Except.ok.inj h1
            subst h2
            simp [List.lookup]
        | some fd =>
          rw [hfd] at hres; try dsimp only at hres
          by_cases hex : env.fixturesExists
              (if env.pathIsAbsolute fd then fd else env.joinPath bookRoot fd) = true
          · rw [hex] at hres; try dsimp only at hres
            simp only [Bool.not_true, Bool.false_eq_true, if_false] at hres
            by_cases hdir : env.fixturesIsDir
                (if env.pathIsAbsolute fd then fd else env.joinPath bookRoot fd) = true
            · rw [hdir] at hres; try dsimp only at hres
              simp only [Bool.not_true, Bool.false_eq_true, if_false] at hres
              cases hcan : env.canonicalizePath
                  (if env.pathIsAbsolute fd then fd else env.joinPath bookRoot fd) with
              | error e =>
                rw [hcan] at hres; try dsimp only at hres
                exact absurd (congrArg Prod.fst hres) (by simp)
              | ok canon =>
                rw [hcan] at hres; try dsimp only at hres
                cases hst : env.startRawWithMount vcfg.container
                    (some (canon, fixturesMountPath)) with
                | error e =>
                  rw [hst] at hres; try dsimp only at hres
                  exact absurd (congrArg Prod.fst hres) (by simp)
                | ok c0 =>
                  rw [hst] at hres; try dsimp only at hres
                  simp only [Prod.mk.injEq] at hres
                  obtain ⟨h1, h2, h3⟩ := hres
                  obtain rfl := Except.ok.inj h1
                  subst h2
                  simp [List.lookup]
            · rw [eq_false_of_ne_true hdir] at hres; try dsimp only at hres
              simp only [Bool.not_false, if_true] at hres
              exact absurd (congrArg Prod.fst hres) (by simp)
          · rw [eq_false_of_ne_true hex] at hres; try dsimp only at hres
            simp only [Bool.not_false, if_true] at hres
            exact absurd (congrArg Prod.fst hres) (by simp)

/-- Witness for C10 at a concrete cache already holding a session. -/
theorem c10_witness :
    getOrStartContainer sampleEnv sampleConfig "/book".toList
        [("sqlite".toList, ⟨7⟩)] "sqlite".toList =
      (.ok ⟨7⟩, [("sqlite".toList, ⟨7⟩)], []) :=
  (c10_cache_hit_no_ops sampleEnv sampleConfig "/book".toList
    [("sqlite".toList, ⟨7⟩)] "sqlite".toList).1 ⟨7⟩ (by decide)

/-! ## Claim C2 -/

/-- C2: a chapter containing a block with both `skip` and `hidden` set
makes `process_chapter_with_config` return the typed
mutually-exclusive-attributes error, whose stable code is E011, with the
cache untouched and an empty operation trace: no container start and no
exec happen before the error. -/
theorem c2_skip_hidden_e011 (env : Env) (config : Config)
    (bookRoot chapterName : Str) (containers : List (Str × Container)) (content : Str)
    (h : ∃ b ∈ findValidatorBlocks content, b.skip = true ∧ b.hidden = true) :
    processChapterWithConfig env config bookRoot chapterName containers content =
      (.error (.typed .mutuallyExclusiveAttributes), containers, []) ∧
    ValidatorError.mutuallyExclusiveAttributes.code = "E011".toList := by
  obtain ⟨b, hb, hs, hh⟩ := h
  refine ⟨?_, rfl⟩
  unfold processChapterWithConfig
  have hne : content.isEmpty = false := by
    rcases content with _ | ⟨c, rest⟩
    · simp only [findValidatorBlocks, scanFences, splitInclusive, scanFencesAux,
        List.foldr_nil] at hb
      exact absurd hb (List.not_mem_nil b)
    · rfl
  rw [hne]
  simp only [Bool.false_eq_true, if_false]
  have hbe : (findValidatorBlocks content).isEmpty = false := by
    rcases hmem : findValidatorBlocks content with _ | _
    · rw [hmem] at hb
      exact absurd hb (List.not_mem_nil b)
    · rfl
  rw [hbe]
  simp only [Bool.false_eq_true, if_false]
  have hany : (findValidatorBlocks content).any (fun b => b.skip && b.hidden) = true :=
    List.any_eq_true.mpr ⟨b, hb, by simp [hs, hh]⟩
  rw [hany]
  simp

/-- Witness for C2 at a concrete chapter whose single block carries both
modifiers. -/
theorem c2_witness :
    processChapterWithConfig sampleEnv sampleConfig "/book".toList "ch".toList []
        "\x60\x60\x60sql validator=sqlite hidden skip\nSELECT 1;\n\x60\x60\x60\n".toList =
      (.error (.typed .mutuallyExclusiveAttributes), [], []) ∧
    ValidatorError.mutuallyExclusiveAttributes.code = "E011".toList :=
  c2_skip_hidden_e011 sampleEnv sampleConfig "/book".toList "ch".toList []
    "\x60\x60\x60sql validator=sqlite hidden skip\nSELECT 1;\n\x60\x60\x60\n".toList
    (by decide)

/-! ## Claim C9 -/

/-- C9: a chapter whose content is empty or contains no validator block is
returned byte-for-byte unchanged by `process_chapter_with_config` — no
marker stripping, no blank-line collapsing and no trimming happen, the
cache is untouched and no operation is performed. -/
theorem c9_frame_unchanged (env : Env) (config : Config)
    (bookRoot chapterName : Str) (containers : List (Str × Container)) (content : Str)
    (h : content = [] ∨ findValidatorBlocks content = []) :
    processChapterWithConfig env config bookRoot chapterName containers content =
      (.ok content, containers, []) := by
  unfold processChapterWithConfig
  rcases h with h | h
  · subst h
    rfl
  · rcases content with _ | ⟨c, rest⟩
    · rfl
    · rw [h]
      rfl

/-- Witness for C9 at a concrete chapter with a non-validator fence,
excess blank lines and trailing whitespace (all of which the rewriter
would otherwise touch). -/
theorem c9_witness :
    processChapterWithConfig sampleEnv sampleConfig "/book".toList "ch".toList []
        "# T\n\n\n\n\x60\x60\x60python\nx = 1\n\x60\x60\x60\n\ntail   ".toList =
      (.ok "# T\n\n\n\n\x60\x60\x60python\nx = 1\n\x60\x60\x60\n\ntail   ".toList, [], []) :=
  c9_frame_unchanged sampleEnv sampleConfig "/book".toList "ch".toList []
    "# T\n\n\n\n\x60\x60\x60python\nx = 1\n\x60\x60\x60\n\ntail   ".toList
    (Or.inr (by decide))

/-- C4 as stated is false: when the query step exits non-zero the
dispatcher does not return the typed E005 query-failed error carrying the
exit code — at the concrete input below it returns an untyped message
error instead. -/
theorem c4_counterexample :
    ¬ (∀ (env : Env) (vcfg : VConfig) (container : Container) (block : ValidatorBlock)
        (chapterName bookRoot : Str) (r : ExecResult),
        env.scriptExists (env.joinPath bookRoot vcfg.script) = true →
        block.markers.setup = none →
        rustTrim (validationContent block.markers) ≠ [] →
        env.execStdin container (shC ++ [getExecCommand block.validatorName vcfg])
          (rustTrim (validationContent block.markers)) = .ok r →
        r.exitCode ≠ 0 →
        ∃ m, (validateBlockHostBased env vcfg container block chapterName bookRoot).1 =
          .error (.typed (.queryFailed r.exitCode m))) := by
  intro hclaim
  obtain ⟨m, hm⟩ := hclaim c4Env sampleVC ⟨0⟩ c4Block "ch".toList "/b".toList
    ⟨1, [], "boom".toList⟩ rfl rfl (by decide) rfl (by decide)
  have heval : (validateBlockHostBased c4Env sampleVC ⟨0⟩ c4Block "ch".toList
      "/b".toList).1 =
      .error (.msg ("Query failed in 'ch' (validator: sqlite):\n\nSQL:\nSELECT 1;\n\nError:\nboom".toList)) := by
    rfl
  rw [heval] at hm
  simp at hm

/-- C4 amended: when the in-sandbox query step exits with a non-zero code
(the script exists, the SETUP step is absent, trivial or successful, and
the validation content is non-empty), the dispatcher returns an untyped
message error naming the chapter, the validator, the submitted query and
the captured stderr — not the typed E005 kind, which this path never
constructs. -/
theorem c4_query_failed_untyped (env : Env) (vcfg : VConfig) (container : Container)
    (block : ValidatorBlock) (chapterName bookRoot : Str) (r : ExecResult)
    (hscript : env.scriptExists (env.joinPath bookRoot vcfg.script) = true)
    (hsetup : ∀ s, block.markers.setup = some s →
      rustTrim s = [] ∨
        ∃ r0, env.execRaw container (shC ++ [rustTrim s]) = .ok r0 ∧ r0.exitCode = 0)
    (hquery : rustTrim (validationContent block.markers) ≠ [])
    (hexec : env.execStdin container (shC ++ [getExecCommand block.validatorName vcfg])
      (rustTrim (validationContent block.markers)) = .ok r)
    (hec : r.exitCode ≠ 0) :
    (validateBlockHostBased env vcfg container block chapterName bookRoot).1 =
      .error (.msg ("Query failed in '".toList ++ chapterName ++
        "' (validator: ".toList ++ block.validatorName ++ "):\n\nSQL:\n".toList ++
        rustTrim (validationContent block.markers) ++ "\n\nError:\n".toList ++
        r.stderr)) := by
  unfold validateBlockHostBased
  simp only [hscript, Bool.not_true, Bool.false_eq_true, if_false]
  have hqz : (rustTrim (validationContent block.markers)).isEmpty = false := by
    rcases hh : rustTrim (validationContent block.markers) with _ | _
    · exact absurd hh hquery
    · rfl
  cases hst : block.markers.setup with
  | none =>
    dsimp only
    rw [hqz]
    simp only [Bool.false_eq_true, if_false]
    rw [hexec]
    dsimp only
    rw [if_pos hec]
  | some s =>
    dsimp only
    rcases hsetup s hst with hse | ⟨r0, hr0, hr0z⟩
    · rw [hse]
      simp only [List.isEmpty_nil, Bool.not_true, Bool.false_eq_true, if_false]
      rw [hqz]
      simp only [Bool.false_eq_true, if_false]
      rw [hexec]
      dsimp only
      rw [if_pos hec]
    · have hsne : (rustTrim s).isEmpty = false ∨ (rustTrim s).isEmpty = true := by
        rcases (rustTrim s).isEmpty with _ | _ <;> simp
      rcases hsne with hsne | hsne
      · rw [hsne]
        simp only [Bool.not_false, if_true]
        rw [hr0]
        dsimp only
        rw [if_neg (by simp [hr0z])]
        rw [hqz]
        simp only [Bool.false_eq_true, if_false]
        rw [hexec]
        dsimp only
        rw [if_pos hec]
      · rw [hsne]
        simp only [Bool.not_true, Bool.false_eq_true, if_false]
        rw [hqz]
        simp only [Bool.false_eq_true, if_false]
        rw [hexec]
        dsimp only
        rw [if_pos hec]

/-- Witness for the amended C4 at the concrete failing query. -/
theorem c4_witness :
    (validateBlockHostBased c4Env sampleVC ⟨0⟩ c4Block "ch".toList "/b".toList).1 =
      .error (.msg ("Query failed in 'ch' (validator: sqlite):\n\nSQL:\nSELECT 1;\n\nError:\nboom".toList)) := by
  have h := c4_query_failed_untyped c4Env sampleVC ⟨0⟩ c4Block "ch".toList "/b".toList
    ⟨1, [], "boom".toList⟩ rfl (fun s hs => by simp [c4Block] at hs) (by decide) rfl
    (by decide)
  rw [h]
  rfl

theorem extractMarkers_eq (body : Str) :
    extractMarkers body =
      { setup := (extractMarkerBlock body setupTag).map (fun x => x.2.1)
        assertions :=
          (extractMarkerBlock (remAfterSetup body) assertTag).map (fun x => x.2.1)
        expect :=
          (extractMarkerBlock (remAfterAssert body) expectTag).map (fun x => x.2.1)
        visibleContent := rustTrim (remAfterExpect body) } := by
  unfold extractMarkers remAfterExpect remAfterAssert remAfterSetup excise
  rcases h1 : extractMarkerBlock body setupTag with _ | ⟨b1, i1, a1⟩ <;>
    dsimp only <;>
    [skip; skip] <;>
    rcases h2 : extractMarkerBlock _ assertTag with _ | ⟨b2, i2, a2⟩ <;>
    dsimp only <;>
    rcases h3 : extractMarkerBlock _ expectTag with _ | ⟨b3, i3, a3⟩ <;>
    dsimp only <;> rfl

/-! ## Occurrence and survival lemmas for C7 and C8 -/

theorem occ_getElem {tag l : Str} {p : Nat} (h : tag <+: l.drop p) :
    ∀ i, i < tag.length → l[p + i]? = tag[i]? := by
  intro i hi
  obtain ⟨t, ht⟩ := h
  have h1 : (l.drop p)[i]? = l[p + i]? := by
    rw [List.getElem?_drop]
  rw [← h1, ← ht]
  exact List.getElem?_append_left hi

/-- Dropping past the kept prefix of a spliced string lands in the kept
suffix. -/
theorem drop_append_cut {l : Str} {s m k : Nat} (hs : s ≤ l.length) :
    (l.take s ++ l.drop m).drop (s + k) = l.drop (m + k) := by
  rw [List.drop_append_eq_append_drop]
  have h1 : (l.take s).length = s := by
    simp [List.length_take]
    omega
  rw [h1, List.drop_eq_nil_of_le (by omega : (l.take s).length ≤ s + k)]
  rw [List.drop_drop]
  simp only [List.nil_append]
  congr 1
  omega

/-- The three marker tags start with `'<'`, while a `-->` closer consists
of `-`, `-`, `>`; hence an occurrence of the closer strictly before a tag
occurrence ends at or before the tag's start. -/
theorem closer_before {tag body : Str} {s e : Nat}
    (htag : tag <+: body.drop s) (h0 : tag[0]? = some '<')
    (harr : arrowCloseTok <+: body.drop e) (he : e < s) : e + 3 ≤ s := by
  have h0len : 0 < tag.length := by
    by_contra hc
    push_neg at hc
    interval_cases htl : tag.length
    rw [List.getElem?_eq_none (by omega)] at h0
    exact absurd h0 (by simp)
  have hts : body[s]? = some '<' := by
    have := occ_getElem htag 0 h0len
    simpa [h0] using this
  by_contra hc
  push_neg at hc
  have he1 : s = e + 1 ∨ s = e + 2 := by omega
  rcases he1 with he1 | he1
  · have := occ_getElem harr 1 (by decide)
    rw [← he1] at this
    rw [hts] at this
    simp [arrowCloseTok] at this
  · have := occ_getElem harr 2 (by decide)
    rw [show e + 2 = s from he1.symm] at this
    rw [hts] at this
    simp [arrowCloseTok] at this

/-- Occurrences-with-no-closer-after survive one excision pass of another
marker. -/
theorem survive_excise {body otherTag tag : Str} {s : Nat}
    (h0 : tag[0]? = some '<')
    (hocc : tag <+: body.drop s)
    (hnoc : ∀ j, s ≤ j → ¬ arrowCloseTok <+: body.drop j) :
    ∃ s', tag <+: (excise body otherTag).drop s' ∧
      ∀ j, s' ≤ j → ¬ arrowCloseTok <+: (excise body otherTag).drop j := by
  unfold excise
  cases hblk : extractMarkerBlock body otherTag with
  | none => exact ⟨s, hocc, hnoc⟩
  | some x =>
    obtain ⟨b, inner, a⟩ := x
    dsimp only
    unfold extractMarkerBlock at hblk
    cases hfind : findSubstr otherTag body with
    | none =>
      rw [hfind] at hblk
      exact absurd hblk (by simp)
    | some start =>
      rw [hfind] at hblk
      dsimp only at hblk
      cases hnl : findCh '\n' (body.drop start) with
      | none =>
        rw [hnl] at hblk
        exact absurd hblk (by simp)
      | some i =>
        rw [hnl] at hblk
        dsimp only at hblk
        cases harr : findSubstr arrowCloseTok (body.drop (start + i + 1)) with
        | none =>
          rw [harr] at hblk
          exact absurd hblk (by simp)
        | some k =>
          rw [harr] at hblk
          dsimp only at hblk
          simp only [Option.some.injEq, Prod.mk.injEq] at hblk
          obtain ⟨hb, hinner, ha⟩ := hblk
          -- the closer occurrence sits at start + i + 1 + k, before s
          have hocc_arr : arrowCloseTok <+: body.drop (start + i + 1 + k) := by
            have h' := findSubstr_some_occurs harr
            rw [List.drop_drop] at h'
            convert h' using 2
          have he_lt : start + i + 1 + k < s := by
            by_contra hc
            push_neg at hc
            exact hnoc _ hc hocc_arr
          have he3 : start + i + 1 + k + 3 ≤ s := closer_before hocc h0 hocc_arr he_lt
          have hstart_le : start ≤ body.length := findSubstr_some_le hfind
          subst hb
          subst ha
          refine ⟨start + (s - (start + i + 1 + k + 3)), ?_, ?_⟩
          · rw [drop_append_cut hstart_le]
            rw [show start + i + 1 + k + 3 + (s - (start + i + 1 + k + 3)) = s from by
              omega]
            exact hocc
          · intro j hj
            rw [show j = start + (j - start) from by omega]
            rw [drop_append_cut hstart_le]
            apply hnoc
            omega

/-- A non-empty all-non-whitespace occurrence survives `rustTrimStart`. -/
theorem survive_trimStart {tag l : Str} {p : Nat}
    (hne : tag ≠ []) (hnw : ∀ c ∈ tag, rustIsWhitespace c = false)
    (hocc : tag <+: l.drop p) :
    ∃ q, tag <+: (rustTrimStart l).drop q := by
  induction l generalizing p with
  | nil =>
    simp only [List.drop_nil] at hocc
    exact absurd (List.prefix_nil.mp hocc) hne
  | cons c t ih =>
    by_cases hws : rustIsWhitespace c = true
    · have hstep : rustTrimStart (c :: t) = rustTrimStart t := by
        simp [rustTrimStart, hws]
      rw [hstep]
      match p with
      | 0 =>
        exfalso
        simp only [List.drop_zero] at hocc
        rcases tag with _ | ⟨tc, tt⟩
        · exact hne rfl
        · obtain ⟨u, hu⟩ := hocc
          have hc1 : tc = c := by
            have := congrArg (fun l => l[0]?) hu
            simpa using this
          have h2 := hnw tc (by simp)
          rw [hc1, hws] at h2
          exact absurd h2 (by simp)
      | p + 1 =>
        exact ih (by simpa using hocc)
    · have hstep : rustTrimStart (c :: t) = c :: t := by
        simp [rustTrimStart, eq_false_of_ne_true hws]
      rw [hstep]
      exact ⟨p, hocc⟩

/-- `rustTrimEnd` keeps a prefix; the dropped suffix is all whitespace. -/
theorem trimEnd_decomp (l : Str) :
    ∃ w, l = rustTrimEnd l ++ w ∧ ∀ c ∈ w, rustIsWhitespace c = true := by
  refine ⟨(l.reverse.takeWhile rustIsWhitespace).reverse, ?_, ?_⟩
  · unfold rustTrimEnd
    conv_lhs => rw [← l.reverse_reverse]
    rw [← List.reverse_append]
    congr 1
    rw [List.takeWhile_append_dropWhile]
  · intro c hc
    rw [List.mem_reverse] at hc
    exact List.mem_takeWhile_imp hc

/-- Trimming keeps a contiguous middle part of the string. -/
theorem rustTrim_isInfix (s : Str) : rustTrim s <:+: s := by
  obtain ⟨w, hw, -⟩ := trimEnd_decomp (rustTrimStart s)
  obtain ⟨pre, hpre⟩ := (List.dropWhile_suffix rustIsWhitespace :
    (rustTrimStart s).IsSuffix s)
  refine ⟨pre, w, ?_⟩
  rw [rustTrim, List.append_assoc, ← hw, rustTrimStart]
  exact hpre

/-- Blank-line normalization only removes characters. -/
theorem normalizeBlankLines_sublist (s : Str) :
    List.Sublist (normalizeBlankLines s) s :=
  List.Sublist.trans
    ((rustTrim_isInfix (normalizeNl s 0)).sublist)
    (normalizeNl_sublist s 0)

/-- A non-empty all-non-whitespace occurrence survives `rustTrimEnd`. -/
theorem survive_trimEnd {tag l : Str} {p : Nat}
    (hne : tag ≠ []) (hnw : ∀ c ∈ tag, rustIsWhitespace c = false)
    (hocc : tag <+: l.drop p) :
    tag <+: (rustTrimEnd l).drop p := by
  obtain ⟨w, hw, hwws⟩ := trimEnd_decomp l
  set T := rustTrimEnd l with hT
  have hlen : 0 < tag.length := by
    rcases tag with _ | _
    · exact absurd rfl hne
    · simp
  have hfit : p + tag.length ≤ T.length := by
    by_contra hc
    push_neg at hc
    have hlast : l[p + (tag.length - 1)]? = tag[tag.length - 1]? :=
      occ_getElem hocc (tag.length - 1) (by omega)
    have hlt : p + (tag.length - 1) < l.length := by
      have hbound : p + tag.length ≤ l.length := by
        have := hocc.length_le
        rw [List.length_drop] at this
        by_cases hp : p ≤ l.length
        · omega
        · exfalso
          rw [List.drop_eq_nil_of_le (by omega)] at hocc
          exact hne (List.prefix_nil.mp hocc)
      omega
    have hge : T.length ≤ p + (tag.length - 1) := by omega
    have : l[p + (tag.length - 1)]? = w[p + (tag.length - 1) - T.length]? := by
      rw [hw]
      exact List.getElem?_append_right hge
    rw [hlast] at this
    have htagc : tag[tag.length - 1]? = some (tag.getLast hne) := by
      rw [List.getLast_eq_getElem]
      exact List.getElem?_eq_getElem (by omega)
    rw [htagc] at this
    have hcmem : tag.getLast hne ∈ w := by
      have hg : w.get? (p + (tag.length - 1) - T.length) = some (tag.getLast hne) := by
        rw [List.get?_eq_getElem?]
        exact this.symm
      exact List.get?_mem hg
    have h1 := hwws _ hcmem
    have h2 := hnw (tag.getLast hne) (List.getLast_mem hne)
    rw [h1] at h2
    exact absurd h2 (by simp)
  have hdropT : l.drop p = T.drop p ++ w := by
    rw [hw]
    exact List.drop_append_of_le_length (by omega)
  rw [hdropT] at hocc
  have htake := List.prefix_iff_eq_take.mp hocc
  rw [List.take_append_eq_append_take] at htake
  have hlen2 : tag.length ≤ (T.drop p).length := by
    rw [List.length_drop]
    omega
  rw [show tag.length - (T.drop p).length = 0 from by omega] at htake
  simp only [List.take_zero, List.append_nil] at htake
  rw [htake]
  exact List.take_prefix _ _

/-- A non-empty all-non-whitespace occurrence survives `rustTrim`. -/
theorem survive_trim {tag l : Str} {p : Nat}
    (hne : tag ≠ []) (hnw : ∀ c ∈ tag, rustIsWhitespace c = false)
    (hocc : tag <+: l.drop p) :
    ∃ q, tag <+: (rustTrim l).drop q := by
  obtain ⟨q, hq⟩ := survive_trimStart hne hnw hocc
  exact ⟨q, survive_trimEnd hne hnw hq⟩

theorem noCloser_unbounded {body : Str} {s : Nat}
    (h : ∀ j, s ≤ j → j < body.length →
      arrowCloseTok.isPrefixOf (body.drop j) = false) :
    ∀ j, s ≤ j → ¬ arrowCloseTok <+: body.drop j := by
  intro j hj hpre
  by_cases hlt : j < body.length
  · have htrue : arrowCloseTok.isPrefixOf (body.drop j) = true :=
      List.isPrefixOf_iff_prefix.mpr hpre
    rw [h j hj hlt] at htrue
    exact absurd htrue (by simp)
  · push_neg at hlt
    rw [List.drop_eq_nil_of_le hlt] at hpre
    have := List.prefix_nil.mp hpre
    simp [arrowCloseTok] at this

theorem extractMarkerBlock_none_of_unclosed {body tag : Str} {s : Nat}
    (hfind : findSubstr tag body = some s)
    (hnoc : ∀ j, s ≤ j → ¬ arrowCloseTok <+: body.drop j) :
    extractMarkerBlock body tag = none := by
  unfold extractMarkerBlock
  rw [hfind]
  dsimp only
  cases hnl : findCh '\n' (body.drop s) with
  | none => rfl
  | some i =>
    dsimp only
    cases harr : findSubstr arrowCloseTok (body.drop (s + i + 1)) with
    | none => rfl
    | some k =>
      exfalso
      have h' := findSubstr_some_occurs harr
      rw [List.drop_drop] at h'
      exact hnoc _ (by omega) h'

/-! ## Claim C7 -/

/-- C7 as stated is false: an unclosed marker opener in the original body
is not always treated as absent, because extracting an earlier marker type
can splice together a new opener occurrence that does have a closer.  At
the concrete body below the EXPECT opener has no `-->` after it, yet
extraction produces an EXPECT field. -/
theorem c7_counterexample : ¬ (∀ body : Str,
    (∀ s, findSubstr setupTag body = some s →
      (∀ j, s ≤ j → j < body.length →
        arrowCloseTok.isPrefixOf (body.drop j) = false) →
      (extractMarkers body).setup = none ∧
        ∃ q, setupTag.isPrefixOf ((extractMarkers body).visibleContent.drop q) = true) ∧
    (∀ s, findSubstr assertTag body = some s →
      (∀ j, s ≤ j → j < body.length →
        arrowCloseTok.isPrefixOf (body.drop j) = false) →
      (extractMarkers body).assertions = none ∧
        ∃ q, assertTag.isPrefixOf ((extractMarkers body).visibleContent.drop q) = true) ∧
    (∀ s, findSubstr expectTag body = some s →
      (∀ j, s ≤ j → j < body.length →
        arrowCloseTok.isPrefixOf (body.drop j) = false) →
      (extractMarkers body).expect = none ∧
        ∃ q, expectTag.isPrefixOf ((extractMarkers body).visibleContent.drop q) = true)) := by
  intro h
  have he := (h "<!--EXPE<!--SETUP\ns\n-->CT\nfoo-->\n<!--EXPECT\ntail".toList).2.2
    33 (by decide) (by decide)
  have heval :
      (extractMarkers "<!--EXPE<!--SETUP\ns\n-->CT\nfoo-->\n<!--EXPECT\ntail".toList).expect =
        some "foo".toList := by decide
  rw [heval] at he
  exact absurd he.1 (by simp)

/-- C7 amended: a marker opener that is unclosed at its own extraction
stage (markers are extracted SETUP, then ASSERT, then EXPECT, each from
the residue of the previous pass) is treated as absent: its field is
`none` and the opener text still occurs in the visible content.  For
SETUP the stage input is the original body, so the claim holds there as
stated; for ASSERT and EXPECT the body is replaced by the corresponding
residue. -/
theorem c7_unclosed_marker_absent (body : Str) :
    (∀ s, findSubstr setupTag body = some s →
      (∀ j, s ≤ j → j < body.length →
        arrowCloseTok.isPrefixOf (body.drop j) = false) →
      (extractMarkers body).setup = none ∧
        ∃ q, setupTag.isPrefixOf ((extractMarkers body).visibleContent.drop q) = true) ∧
    (∀ s, findSubstr assertTag (remAfterSetup body) = some s →
      (∀ j, s ≤ j → j < (remAfterSetup body).length →
        arrowCloseTok.isPrefixOf ((remAfterSetup body).drop j) = false) →
      (extractMarkers body).assertions = none ∧
        ∃ q, assertTag.isPrefixOf ((extractMarkers body).visibleContent.drop q) = true) ∧
    (∀ s, findSubstr expectTag (remAfterAssert body) = some s →
      (∀ j, s ≤ j → j < (remAfterAssert body).length →
        arrowCloseTok.isPrefixOf ((remAfterAssert body).drop j) = false) →
      (extractMarkers body).expect = none ∧
        ∃ q, expectTag.isPrefixOf ((extractMarkers body).visibleContent.drop q) = true) := by
  rw [extractMarkers_eq]
  refine ⟨?_, ?_, ?_⟩
  · intro s hfind hnocB
    have hnoc := noCloser_unbounded hnocB
    have hblk := extractMarkerBlock_none_of_unclosed hfind hnoc
    constructor
    · simp [hblk]
    · have hrem1 : remAfterSetup body = body := by
        unfold remAfterSetup excise
        rw [hblk]
      have hocc0 := findSubstr_some_occurs hfind
      obtain ⟨s2, hocc2, hnoc2⟩ :=
        @survive_excise _ assertTag _ _ (by decide) hocc0 hnoc
      obtain ⟨s3, hocc3, hnoc3⟩ :=
        @survive_excise _ expectTag _ _ (by decide) hocc2 hnoc2
      have hre : remAfterExpect body = excise (excise body assertTag) expectTag := by
        unfold remAfterExpect remAfterAssert
        rw [hrem1]
      obtain ⟨q, hq⟩ := survive_trim (by decide) (by decide) hocc3
      refine ⟨q, ?_⟩
      show setupTag.isPrefixOf ((rustTrim (remAfterExpect body)).drop q) = true
      rw [hre]
      exact List.isPrefixOf_iff_prefix.mpr hq
  · intro s hfind hnocB
    have hnoc := noCloser_unbounded hnocB
    have hblk := extractMarkerBlock_none_of_unclosed hfind hnoc
    constructor
    · simp [hblk]
    · have hrem2 : remAfterAssert body = remAfterSetup body := by
        unfold remAfterAssert excise
        rw [hblk]
      have hocc0 := findSubstr_some_occurs hfind
      obtain ⟨s3, hocc3, hnoc3⟩ :=
        @survive_excise _ expectTag _ _ (by decide) hocc0 hnoc
      have hre : remAfterExpect body = excise (remAfterSetup body) expectTag := by
        unfold remAfterExpect
        rw [hrem2]
      obtain ⟨q, hq⟩ := survive_trim (by decide) (by decide) hocc3
      refine ⟨q, ?_⟩
      show assertTag.isPrefixOf ((rustTrim (remAfterExpect body)).drop q) = true
      rw [hre]
      exact List.isPrefixOf_iff_prefix.mpr hq
  · intro s hfind hnocB
    have hnoc := noCloser_unbounded hnocB
    have hblk := extractMarkerBlock_none_of_unclosed hfind hnoc
    constructor
    · simp [hblk]
    · have hre : remAfterExpect body = remAfterAssert body := by
        unfold remAfterExpect excise
        rw [hblk]
      have hocc0 := findSubstr_some_occurs hfind
      obtain ⟨q, hq⟩ := survive_trim (by decide) (by decide) hocc0
      refine ⟨q, ?_⟩
      show expectTag.isPrefixOf ((rustTrim (remAfterExpect body)).drop q) = true
      rw [hre]
      exact List.isPrefixOf_iff_prefix.mpr hq

/-- Witness for the amended C7 at a concrete unclosed SETUP marker. -/
theorem c7_witness :
    (extractMarkers "<!--SETUP\nno closer".toList).setup = none ∧
      ∃ q, setupTag.isPrefixOf
        ((extractMarkers "<!--SETUP\nno closer".toList).visibleContent.drop q) = true :=
  (c7_unclosed_marker_absent "<!--SETUP\nno closer".toList).1 0 (by decide) (by decide)

/-! ## Claim C8 -/

/-- C8 as stated is false: marker recognition does not require the tag to
begin a line.  At the concrete body below `<!--SETUP` occurs only in the
middle of a line, yet extraction recognizes and extracts it. -/
theorem c8_counterexample : ¬ (∀ body : Str,
    ((∃ i, i < body.length ∧ setupTag.isPrefixOf (body.drop i) = true) →
      (∀ i, i < body.length → setupTag.isPrefixOf (body.drop i) = true →
        ¬(i = 0 ∨ body[i - 1]? = some '\n')) →
      (extractMarkers body).setup = none) ∧
    ((∃ i, i < body.length ∧ assertTag.isPrefixOf (body.drop i) = true) →
      (∀ i, i < body.length → assertTag.isPrefixOf (body.drop i) = true →
        ¬(i = 0 ∨ body[i - 1]? = some '\n')) →
      (extractMarkers body).assertions = none) ∧
    ((∃ i, i < body.length ∧ expectTag.isPrefixOf (body.drop i) = true) →
      (∀ i, i < body.length → expectTag.isPrefixOf (body.drop i) = true →
        ¬(i = 0 ∨ body[i - 1]? = some '\n')) →
      (extractMarkers body).expect = none)) := by
  intro h
  have hs := (h "x <!--SETUP\ns\n-->".toList).1 ⟨2, by decide, by decide⟩ (by decide)
  have heval : (extractMarkers "x <!--SETUP\ns\n-->".toList).setup = some "s".toList := by
    decide
  rw [heval] at hs
  exact absurd hs (by simp)

/-- C8 amended: at each extraction stage, the first occurrence of the
marker tag is recognized wherever it sits in a line — the only
requirements are a newline somewhere after the tag occurrence and a `-->`
closer after that newline; the inner text is the trimmed span between
them. -/
theorem c8_tag_recognized_midline (body : Str) :
    (∀ s i e, findSubstr setupTag body = some s →
      findCh '\n' (body.drop s) = some i →
      findSubstr arrowCloseTok (body.drop (s + i + 1)) = some e →
      (extractMarkers body).setup =
        some (rustTrim (sliceRange body (s + i + 1) (s + i + 1 + e)))) ∧
    (∀ s i e, findSubstr assertTag (remAfterSetup body) = some s →
      findCh '\n' ((remAfterSetup body).drop s) = some i →
      findSubstr arrowCloseTok ((remAfterSetup body).drop (s + i + 1)) = some e →
      (extractMarkers body).assertions =
        some (rustTrim (sliceRange (remAfterSetup body) (s + i + 1) (s + i + 1 + e)))) ∧
    (∀ s i e, findSubstr expectTag (remAfterAssert body) = some s →
      findCh '\n' ((remAfterAssert body).drop s) = some i →
      findSubstr arrowCloseTok ((remAfterAssert body).drop (s + i + 1)) = some e →
      (extractMarkers body).expect =
        some (rustTrim (sliceRange (remAfterAssert body) (s + i + 1) (s + i + 1 + e)))) := by
  have hgen : ∀ (b tag : Str) (s i e : Nat), findSubstr tag b = some s →
      findCh '\n' (b.drop s) = some i →
      findSubstr arrowCloseTok (b.drop (s + i + 1)) = some e →
      extractMarkerBlock b tag =
        some (b.take s, rustTrim (sliceRange b (s + i + 1) (s + i + 1 + e)),
          b.drop (s + i + 1 + e + 3)) := by
    intro b tag s i e h1 h2 h3
    unfold extractMarkerBlock
    rw [h1]
    dsimp only
    rw [h2]
    dsimp only
    rw [h3]
  rw [extractMarkers_eq]
  refine ⟨?_, ?_, ?_⟩ <;>
  · intro s i e h1 h2 h3
    have hblk := hgen _ _ s i e h1 h2 h3
    simp [hblk]

/-- Witness for the amended C8 at a concrete mid-line SETUP marker. -/
theorem c8_witness :
    (extractMarkers "x <!--SETUP\nstuff\n-->\ny".toList).setup =
      some "stuff".toList := by
  have h := (c8_tag_recognized_midline "x <!--SETUP\nstuff\n-->\ny".toList).1 2 9 6
    (by decide) (by decide) (by decide)
  rw [h]
  decide

theorem splitInclusive_piece_shape (s : Str) :
    ∀ p ∈ splitInclusive s, p ≠ [] ∧ ∀ c ∈ p.dropLast, c ≠ '\n' := by
  induction s with
  | nil => intro p hp; simp [splitInclusive] at hp
  | cons c rest ih =>
    intro p hp
    unfold splitInclusive at hp
    by_cases hc : c = '\n'
    · rw [if_pos hc] at hp
      rcases List.mem_cons.mp hp with hp | hp
      · subst hp
        exact ⟨by simp, by simp⟩
      · exact ih p hp
    · rw [if_neg hc] at hp
      cases hsi : splitInclusive rest with
      | nil =>
        rw [hsi] at hp
        simp only [List.mem_singleton] at hp
        subst hp
        exact ⟨by simp, by simp⟩
      | cons l ls =>
        rw [hsi] at hp
        rcases List.mem_cons.mp hp with hp | hp
        · subst hp
          have hl := ih l (by rw [hsi]; exact List.mem_cons_self l ls)
          refine ⟨by simp, ?_⟩
          intro d hd
          rcases hl with ⟨hlne, hldrop⟩
          rw [List.dropLast_cons_of_ne_nil hlne] at hd
          rcases List.mem_cons.mp hd with hd | hd
          · subst hd; exact hc
          · exact hldrop d hd
        · exact ih p (by rw [hsi]; exact List.mem_cons_of_mem l hp)

theorem stripLineEnd_no_newline {p : Str} (hne : p ≠ [])
    (hdrop : ∀ c ∈ p.dropLast, c ≠ '\n') : '\n' ∉ stripLineEnd p := by
  unfold stripLineEnd
  by_cases hl : p.getLast? = some '\n'
  · rw [if_pos hl]
    dsimp only
    by_cases hr : p.dropLast.getLast? = some '\r'
    · rw [if_pos hr]
      intro hmem
      exact hdrop '\n' (List.dropLast_sublist p.dropLast |>.mem hmem) rfl
    · rw [if_neg hr]
      intro hmem
      exact hdrop '\n' hmem rfl
  · rw [if_neg hl]
    intro hmem
    have hsplit : p = p.dropLast ++ [p.getLast hne] := (List.dropLast_append_getLast hne).symm
    rw [hsplit] at hmem
    rcases List.mem_append.mp hmem with hmem | hmem
    · exact hdrop '\n' hmem rfl
    · simp only [List.mem_singleton] at hmem
      apply hl
      rw [List.getLast?_eq_getLast p hne, ← hmem]

theorem rustLines_no_newline (s : Str) : ∀ l ∈ rustLines s, '\n' ∉ l := by
  intro l hl
  unfold rustLines at hl
  obtain ⟨p, hp, rfl⟩ := List.mem_map.mp hl
  obtain ⟨hne, hdrop⟩ := splitInclusive_piece_shape s p hp
  exact stripLineEnd_no_newline hne hdrop

theorem splitInclusive_cons_ne {c : Char} (rest : Str) (hc : c ≠ '\n') :
    splitInclusive (c :: rest) =
      match splitInclusive rest with
      | [] => [[c]]
      | l :: ls => (c :: l) :: ls := by
  conv_lhs => rw [splitInclusive]
  rw [if_neg hc]

theorem splitInclusive_append_newline {x : Str} (hx : '\n' ∉ x) (t : Str) :
    splitInclusive (x ++ '\n' :: t) = (x ++ ['\n']) :: splitInclusive t := by
  induction x with
  | nil => simp [splitInclusive]
  | cons c x' ih =>
    have hc : c ≠ '\n' := fun h => hx (h ▸ List.mem_cons_self c x')
    have hx' : '\n' ∉ x' := fun h => hx (List.mem_cons_of_mem c h)
    show splitInclusive (c :: (x' ++ '\n' :: t)) = _
    rw [splitInclusive_cons_ne _ hc, ih hx']
    rfl

theorem splitInclusive_no_newline {x : Str} (hx : '\n' ∉ x) :
    splitInclusive x = if x = [] then [] else [x] := by
  induction x with
  | nil => simp [splitInclusive]
  | cons c x' ih =>
    have hc : c ≠ '\n' := fun h => hx (h ▸ List.mem_cons_self c x')
    have hx' : '\n' ∉ x' := fun h => hx (List.mem_cons_of_mem c h)
    unfold splitInclusive
    rw [if_neg hc, ih hx']
    by_cases h0 : x' = []
    · subst h0
      simp
    · rw [if_neg h0]
      simp

theorem stripLineEnd_concat_newline (x : Str) :
    stripLineEnd (x ++ ['\n']) = stripCR x := by
  unfold stripLineEnd stripCR
  rw [if_pos (by simp)]
  simp only [List.dropLast_concat]

theorem stripLineEnd_of_no_newline {x : Str} (hx : '\n' ∉ x) :
    stripLineEnd x = x := by
  have h : x.getLast? ≠ some '\n' := by
    intro hcontra
    exact hx (List.mem_of_mem_getLast? (Option.mem_def.mpr hcontra))
  unfold stripLineEnd
  rw [if_neg h]

theorem dropLastEmpty_cons {a : Str} {ls : List Str} (h : ls ≠ []) :
    dropLastEmpty (a :: ls) = a :: dropLastEmpty ls := by
  obtain ⟨b, ls', rfl⟩ := List.exists_cons_of_ne_nil h
  unfold dropLastEmpty
  rw [List.getLast?_cons_cons]
  rcases hl : (b :: ls').getLast? with _ | lst
  · exact absurd hl (by simp)
  · rcases lst with _ | ⟨d, ds⟩
    · dsimp only
      rw [List.dropLast_cons_of_ne_nil (by simp)]
    · rfl

theorem rustLines_joinNL (xs : List Str)
    (hnl : ∀ x ∈ xs, '\n' ∉ x)
    (hcr : ∀ lst, xs.getLast? = some lst → lst.getLast? ≠ some '\r') :
    rustLines (joinNL xs) = dropLastEmpty (xs.map stripCR) := by
  induction xs with
  | nil => rfl
  | cons x xs ih =>
    rcases xs with _ | ⟨y, rest⟩
    · show rustLines x = dropLastEmpty [stripCR x]
      have hx : '\n' ∉ x := hnl x (by simp)
      have hcrx : x.getLast? ≠ some '\r' := hcr x (by simp)
      have hscr : stripCR x = x := by
        unfold stripCR
        rw [if_neg hcrx]
      unfold rustLines
      rw [splitInclusive_no_newline hx, hscr]
      by_cases h0 : x = []
      · subst h0
        rfl
      · rw [if_neg h0]
        show [stripLineEnd x] = dropLastEmpty [x]
        rw [stripLineEnd_of_no_newline hx]
        unfold dropLastEmpty
        simp only [List.getLast?_singleton]
        rcases x with _ | _
        · exact absurd rfl h0
        · rfl
    · show rustLines (x ++ '\n' :: joinNL (y :: rest)) = _
      have hx : '\n' ∉ x := hnl x (by simp)
      unfold rustLines
      rw [splitInclusive_append_newline hx]
      rw [List.map_cons, stripLineEnd_concat_newline]
      have hih := ih (fun z hz => hnl z (List.mem_cons_of_mem x hz))
        (fun lst hlst => hcr lst (by rw [List.getLast?_cons_cons]; exact hlst))
      unfold rustLines at hih
      rw [hih]
      conv_rhs => rw [List.map_cons, dropLastEmpty_cons (by simp)]

theorem trimmed_last {s : Str} (h : rustTrim s = s) (hs : s ≠ []) :
    ∀ c, s.getLast? = some c → rustIsWhitespace c = false := by
  intro c hc
  by_contra hws
  have hws : rustIsWhitespace c = true := by
    rcases hv : rustIsWhitespace c with _ | _
    · exact absurd hv hws
    · rfl
  -- from rustTrim s = s, the start-trim is the identity, so trimEnd s = s
  have hsuf : rustTrimStart s <:+ s := List.dropWhile_suffix rustIsWhitespace
  have hlen1 : (rustTrimStart s).length ≤ s.length := hsuf.sublist.length_le
  have hlen2 : (rustTrimEnd (rustTrimStart s)).length ≤ (rustTrimStart s).length := by
    unfold rustTrimEnd
    calc ((rustTrimStart s).reverse.dropWhile rustIsWhitespace).reverse.length
        = ((rustTrimStart s).reverse.dropWhile rustIsWhitespace).length := by
          rw [List.length_reverse]
      _ ≤ (rustTrimStart s).reverse.length :=
          (List.dropWhile_suffix rustIsWhitespace).sublist.length_le
      _ = (rustTrimStart s).length := by rw [List.length_reverse]
  have hlenEq : (rustTrimStart s).length = s.length := by
    have := congrArg List.length h
    unfold rustTrim at this
    omega
  have hts : rustTrimStart s = s := hsuf.eq_of_length hlenEq
  have hte : rustTrimEnd s = s := by
    have h' := h
    unfold rustTrim at h'
    rwa [hts] at h'
  -- but the last char is whitespace, so trimEnd strictly shrinks
  obtain ⟨t, ht⟩ : ∃ t, s.reverse = c :: t := by
    rcases hr : s.reverse with _ | ⟨d, t⟩
    · exact absurd (by simpa using congrArg List.length hr) (by simpa using hs)
    · refine ⟨t, ?_⟩
      have : s.reverse.head? = some c := by
        rw [List.head?_reverse]
        exact hc
      rw [hr] at this
      simp only [List.head?_cons, Option.some.injEq] at this
      rw [this]
  have : (rustTrimEnd s).length < s.length := by
    unfold rustTrimEnd
    rw [ht]
    rw [List.length_reverse, List.dropWhile_cons_of_pos hws]
    have h1 : (t.dropWhile rustIsWhitespace).length ≤ t.length :=
      (List.dropWhile_suffix rustIsWhitespace).sublist.length_le
    have h2 : s.length = t.length + 1 := by
      have := congrArg List.length ht
      simpa using this
    omega
  rw [hte] at this
  omega

theorem splitInclusive_ne_nil {s : Str} (hs : s ≠ []) : splitInclusive s ≠ [] := by
  rcases s with _ | ⟨c, rest⟩
  · exact absurd rfl hs
  · by_cases hc : c = '\n'
    · subst hc
      unfold splitInclusive
      simp
    · rw [splitInclusive_cons_ne _ hc]
      rcases splitInclusive rest with _ | _ <;> simp

theorem splitInclusive_last {s : Str} (hs : s ≠ []) (hn : s.getLast? ≠ some '\n') :
    ∃ p, (splitInclusive s).getLast? = some p ∧ p.getLast? = s.getLast? := by
  induction s with
  | nil => exact absurd rfl hs
  | cons c rest ih =>
    rcases rest with _ | ⟨d, rest'⟩
    · have hc : c ≠ '\n' := by
        intro hcc
        subst hcc
        exact hn (by simp)
      rw [splitInclusive_cons_ne _ hc]
      refine ⟨[c], ?_, rfl⟩
      show (match splitInclusive [] with
        | [] => [[c]]
        | l :: ls => (c :: l) :: ls).getLast? = some [c]
      rfl
    · have hlast : (c :: d :: rest').getLast? = (d :: rest').getLast? :=
        List.getLast?_cons_cons
      have hn' : (d :: rest').getLast? ≠ some '\n' := by
        rw [← hlast]
        exact hn
      obtain ⟨p, hp1, hp2⟩ := ih (by simp) hn'
      by_cases hc : c = '\n'
      · subst hc
        refine ⟨p, ?_, by rw [hp2, hlast]⟩
        show (['\n'] :: splitInclusive (d :: rest')).getLast? = some p
        obtain ⟨l, ls, hsi⟩ :=
          List.exists_cons_of_ne_nil (splitInclusive_ne_nil (by simp : (d :: rest') ≠ []))
        rw [hsi]
        rw [hsi] at hp1
        rw [List.getLast?_cons_cons]
        exact hp1
      · rw [splitInclusive_cons_ne _ hc]
        rcases hsi : splitInclusive (d :: rest') with _ | ⟨l, ls⟩
        · exact absurd hsi (splitInclusive_ne_nil (by simp))
        · dsimp only
          have hlne : l ≠ [] :=
            (splitInclusive_piece_shape (d :: rest') l (by rw [hsi]; simp)).1
          rcases hls : ls with _ | ⟨m, ms⟩
          · rw [hsi, hls] at hp1
            simp only [List.getLast?_singleton, Option.some.injEq] at hp1
            subst hp1
            refine ⟨c :: l, by simp, ?_⟩
            obtain ⟨e, p', rfl⟩ := List.exists_cons_of_ne_nil hlne
            rw [List.getLast?_cons_cons, hp2, hlast]
          · subst hls
            rw [hsi] at hp1
            rw [List.getLast?_cons_cons] at hp1
            refine ⟨p, ?_, by rw [hp2, hlast]⟩
            rw [List.getLast?_cons_cons]
            exact hp1

theorem rustLines_last {s : Str} (hs : s ≠ []) (hn : s.getLast? ≠ some '\n') :
    ∃ l0, (rustLines s).getLast? = some l0 ∧ l0.getLast? = s.getLast? := by
  obtain ⟨p, hp1, hp2⟩ := splitInclusive_last hs hn
  refine ⟨stripLineEnd p, ?_, ?_⟩
  · unfold rustLines
    rw [List.getLast?_map, hp1]
    rfl
  · have hple : stripLineEnd p = p := by
      unfold stripLineEnd
      rw [if_neg (by rw [hp2]; exact hn)]
    rw [hple]
    exact hp2

theorem getLast?_drop_of_ne_nil {α} {l : List α} {n : Nat} (h : l.drop n ≠ []) :
    (l.drop n).getLast? = l.getLast? := by
  conv_rhs => rw [← List.take_append_drop n l]
  rw [List.getLast?_append_of_ne_nil _ h]

theorem dropWhile_head_false {p : Char → Bool} {l : Str} {c : Char}
    (h : (l.dropWhile p).head? = some c) : p c = false := by
  induction l with
  | nil => simp at h
  | cons a t ih =>
    by_cases ha : p a = true
    · rw [List.dropWhile_cons_of_pos ha] at h
      exact ih h
    · rw [List.dropWhile_cons_of_neg ha] at h
      simp only [List.head?_cons, Option.some.injEq] at h
      rw [← h]
      exact eq_false_of_ne_true ha

theorem dropWhile_of_head_false {p : Char → Bool} {l : Str}
    (h : ∀ c, l.head? = some c → p c = false) : l.dropWhile p = l := by
  rcases l with _ | ⟨a, t⟩
  · rfl
  · rw [List.dropWhile_cons_of_neg]
    rw [h a rfl]
    simp

theorem rustTrim_idem (l : Str) : rustTrim (rustTrim l) = rustTrim l := by
  rcases ht : rustTrim l with _ | ⟨a, u⟩
  · rfl
  · -- head of the trimmed string is not whitespace
    have hhead : rustIsWhitespace a = false := by
      unfold rustTrim rustTrimEnd at ht
      have hpre : (rustTrimStart l).reverse.dropWhile rustIsWhitespace <:+
          (rustTrimStart l).reverse := List.dropWhile_suffix rustIsWhitespace
      -- a :: u is the reverse of the post-trimEnd reverse list
      have hrev : ((rustTrimStart l).reverse.dropWhile rustIsWhitespace).reverse =
          a :: u := ht
      -- the head of a :: u is the head of rustTrimStart l
      have hne : (rustTrimStart l).reverse.dropWhile rustIsWhitespace ≠ [] := by
        intro hnil
        rw [hnil] at hrev
        simp at hrev
      -- suffix of reverse = reverse of prefix; head of a prefix is head of whole
      obtain ⟨w, hw⟩ := hpre
      have : rustTrimStart l = (a :: u) ++ w.reverse := by
        have := congrArg List.reverse hw
        rw [List.reverse_append] at this
        rw [List.reverse_reverse] at this
        rw [hrev] at this
        rw [← this]
      have hh : (rustTrimStart l).head? = some a := by
        rw [this]
        rfl
      exact dropWhile_head_false (by rw [rustTrimStart] at hh; exact hh)
    -- last of the trimmed string is not whitespace
    have hlast : ∀ c, (a :: u).getLast? = some c → rustIsWhitespace c = false := by
      intro c hcl
      unfold rustTrim rustTrimEnd at ht
      have hh : ((rustTrimStart l).reverse.dropWhile rustIsWhitespace).head? = some c := by
        have := congrArg List.reverse ht
        rw [List.reverse_reverse] at this
        rw [this]
        rw [List.head?_reverse]
        exact hcl
      exact dropWhile_head_false hh
    -- now both trims fix a :: u
    unfold rustTrim
    have h1 : rustTrimStart (a :: u) = a :: u := by
      unfold rustTrimStart
      apply dropWhile_of_head_false
      intro c hc
      simp only [List.head?_cons, Option.some.injEq] at hc
      rw [← hc]
      exact hhead
    rw [h1]
    unfold rustTrimEnd
    rw [dropWhile_of_head_false]
    · exact List.reverse_reverse _
    · intro c hc
      rw [List.head?_reverse] at hc
      exact hlast c hc

theorem visibleContent_trimmed (body : Str) :
    rustTrim (extractMarkers body).visibleContent = (extractMarkers body).visibleContent := by
  rw [extractMarkers_eq]
  exact rustTrim_idem _

/-- C3 as stated is false: the validation content does not always have
exactly the same lines as the visible content with only leading `@@`
removed.  The visible content `"a\r\r\nx"` (reachable, and fixed by
trimming) has lines `["a\r", "x"]`, but the validation content's lines are
`["a", "x"]`: rejoining with `'\n'` turns the trailing `"\r"` into a
`"\r\n"` line ending, which the line iterator then strips. -/
theorem c3_counterexample :
    (¬ ∀ s : Str, rustTrim s = s →
        rustLines (stripDoubleAt s) = (rustLines s).map stripAtFn) ∧
    (extractMarkers "a\r\r\nx".toList).visibleContent = "a\r\r\nx".toList := by
  constructor
  · intro h
    have := h "a\r\r\nx".toList (by decide)
    exact absurd this (by decide)
  · decide

/-- C3 amended: for every trimmed content (visible contents are always
trimmed, see `visibleContent_trimmed`), the lines of the validation
content are exactly the lines of the visible content with the leading
`@@` removed from each, except that (i) a line left ending in a carriage
return additionally loses that carriage return, and (ii) a final line
that becomes empty is not counted as a line. -/
theorem c3_validation_lines (s : Str) (h : rustTrim s = s) :
    rustLines (stripDoubleAt s) =
      dropLastEmpty ((rustLines s).map (fun l => stripCR (stripAtFn l))) := by
  have hnl : ∀ x ∈ (rustLines s).map (fun line => (stripPfx atAtTok line).getD line),
      '\n' ∉ x := by
    intro x hx
    obtain ⟨l, hl, rfl⟩ := List.mem_map.mp hx
    intro hmem
    apply rustLines_no_newline s l hl
    unfold stripPfx at hmem
    by_cases hp : atAtTok.isPrefixOf l = true
    · rw [if_pos hp] at hmem
      simp only [Option.getD_some] at hmem
      exact List.mem_of_mem_drop hmem
    · rw [if_neg hp] at hmem
      simp only [Option.getD_none] at hmem
      exact hmem
  have hcr : ∀ lst,
      ((rustLines s).map (fun line => (stripPfx atAtTok line).getD line)).getLast? =
        some lst → lst.getLast? ≠ some '\r' := by
    intro lst hlst
    by_cases hs0 : s = []
    · subst hs0
      simp [rustLines, splitInclusive] at hlst
    · have hlastchar := trimmed_last h hs0
      have hn : s.getLast? ≠ some '\n' := by
        intro hcc
        have hwf := hlastchar '\n' hcc
        have hw : rustIsWhitespace '\n' = true := by decide
        rw [hw] at hwf
        exact absurd hwf (by simp)
      have hnr : s.getLast? ≠ some '\r' := by
        intro hcc
        have hwf := hlastchar '\r' hcc
        have hw : rustIsWhitespace '\r' = true := by decide
        rw [hw] at hwf
        exact absurd hwf (by simp)
      obtain ⟨l0, hl0, hl0b⟩ := rustLines_last hs0 hn
      rw [List.getLast?_map, hl0] at hlst
      simp only [Option.map_some'] at hlst
      obtain rfl := Option.some.inj hlst
      intro hcontra
      unfold stripPfx at hcontra
      by_cases hp : atAtTok.isPrefixOf l0 = true
      · rw [if_pos hp] at hcontra
        simp only [Option.getD_some] at hcontra
        have hne : l0.drop atAtTok.length ≠ [] := by
          intro hnil
          rw [hnil] at hcontra
          simp at hcontra
        rw [getLast?_drop_of_ne_nil hne, hl0b] at hcontra
        exact hnr hcontra
      · rw [if_neg hp] at hcontra
        simp only [Option.getD_none] at hcontra
        rw [hl0b] at hcontra
        exact hnr hcontra
  unfold stripDoubleAt
  rw [rustLines_joinNL _ hnl hcr, List.map_map]
  rfl

/-- Witness for the amended C3 at a concrete visible content with a `@@`
line and an internal blank line. -/
theorem c3_witness :
    rustLines (stripDoubleAt "@@a\n\nb".toList) =
      dropLastEmpty ((rustLines "@@a\n\nb".toList).map (fun l => stripCR (stripAtFn l))) :=
  c3_validation_lines "@@a\n\nb".toList (by decide)

/-- The pieces of `splitInclusive` concatenate back to the string. -/
theorem splitInclusive_flatten (s : Str) : (splitInclusive s).flatten = s := by
  induction s with
  | nil => rfl
  | cons c rest ih =>
    unfold splitInclusive
    by_cases hc : c = '\n'
    · rw [if_pos hc]
      simp [ih, hc]
    · rw [if_neg hc]
      cases hsi : splitInclusive rest with
      | nil =>
        have hrest : rest = [] := by
          by_contra hne
          exact splitInclusive_ne_nil hne hsi
        simp [hrest]
      | cons l ls =>
        rw [hsi] at ih
        simp only [List.flatten_cons, List.cons_append]
        rw [← List.flatten_cons, ih]

/-- Every piece of `splitInclusive` except the last ends in a newline. -/
theorem splitInclusive_dropLast_ends (s : Str) :
    ∀ p ∈ (splitInclusive s).dropLast, p.getLast? = some '\n' := by
  induction s with
  | nil => intro p hp; simp [splitInclusive] at hp
  | cons c rest ih =>
    intro p hp
    unfold splitInclusive at hp
    by_cases hc : c = '\n'
    · rw [if_pos hc] at hp
      cases hsi : splitInclusive rest with
      | nil => rw [hsi] at hp; simp at hp
      | cons l ls =>
        rw [hsi, List.dropLast_cons_of_ne_nil (by simp)] at hp
        rcases List.mem_cons.mp hp with rfl | hp'
        · simp [hc]
        · rw [← hsi] at hp'
          exact ih p hp'
    · rw [if_neg hc] at hp
      cases hsi : splitInclusive rest with
      | nil => rw [hsi] at hp; simp at hp
      | cons l ls =>
        rw [hsi] at hp
        cases ls with
        | nil => simp at hp
        | cons l2 ls2 =>
          rw [List.dropLast_cons_of_ne_nil (by simp)] at hp
          rcases List.mem_cons.mp hp with rfl | hp'
          · have hl := ih l (by
              rw [hsi, List.dropLast_cons_of_ne_nil (by simp)]
              exact List.mem_cons_self l (List.dropLast (l2 :: ls2)))
            have hlne : l ≠ [] := by
              intro hnil
              rw [hnil] at hl
              simp at hl
            obtain ⟨d, l1, rfl⟩ := List.exists_cons_of_ne_nil hlne
            rw [List.getLast?_cons_cons]
            exact hl
          · have : p ∈ (splitInclusive rest).dropLast := by
              rw [hsi, List.dropLast_cons_of_ne_nil (by simp)]
              exact List.mem_cons_of_mem l hp'
            exact ih p this

/-- Reading a character through the suffix correspondence. -/
theorem charAt_of_drop {content l X : Str} {off : Nat}
    (h : content.drop off = l ++ X) :
    ∀ j : Nat, j < l.length → content[off + j]? = l[j]? := by
  intro j hj
  have hg := List.getElem?_drop content off j
  rw [h, List.getElem?_append_left hj] at hg
  exact hg.symm

/-- Equation for `editsOfBlock` on a hidden block. -/
theorem editsOfBlock_hidden {content : Str} {b : FencedBlock}
    (hh : (parseInfoString4 b.info).hidden = true) :
    editsOfBlock content b =
      [.delete (lineStartBefore content b.openStart)
        (lineEndAfter content b.fenceEnd)] := by
  unfold editsOfBlock
  rw [if_pos hh]

/-- The edits of one block chain between a cursor before its opening and
any point past both its line end and its content end. -/
theorem chainOk_editsOfBlock_append (content : Str) (b : FencedBlock)
    (pos nxt : Nat) (E : List Edit)
    (h1 : pos ≤ b.openStart)
    (h2 : b.openStart < b.contentStart)
    (h3 : b.contentStart ≤ b.contentEnd)
    (h4 : b.contentEnd ≤ content.length)
    (hls : lineStartBefore content b.openStart = b.openStart)
    (hfe : b.openStart < lineEndAfter content b.fenceEnd)
    (hlen2 : lineEndAfter content b.fenceEnd ≤ content.length)
    (hnxt : lineEndAfter content b.fenceEnd ≤ nxt)
    (hnxt2 : b.contentEnd ≤ nxt)
    (hE : chainOk content.length nxt E) :
    chainOk content.length pos (editsOfBlock content b ++ E) := by
  have hposnxt : pos ≤ nxt := by omega
  unfold editsOfBlock
  by_cases hh : (parseInfoString4 b.info).hidden
  · rw [if_pos hh, List.cons_append, List.nil_append]
    refine ⟨?_, ?_, hlen2, ?_⟩
    · rw [Edit.startOf, hls]; exact h1
    · rw [Edit.startOf, Edit.stopOf, hls]; exact hfe
    · exact chainOk_mono hnxt hE
  · rw [if_neg hh]
    by_cases hv : (parseInfoString4 b.info).validator.isSome
    · rw [if_pos hv]
      by_cases hce : b.contentStart < b.contentEnd
      · rw [if_pos hce]
        by_cases htr :
            rustTrim (stripMarkers (sliceRange content b.contentStart b.contentEnd)) ≠
              rustTrim (sliceRange content b.contentStart b.contentEnd)
        · rw [if_pos htr, List.cons_append, List.nil_append]
          refine ⟨?_, ?_, h4, ?_⟩
          · rw [Edit.startOf]; omega
          · rw [Edit.startOf, Edit.stopOf]; exact hce
          · exact chainOk_mono hnxt2 hE
        · rw [if_neg htr, List.nil_append]
          exact chainOk_mono hposnxt hE
      · rw [if_neg hce, List.nil_append]
        exact chainOk_mono hposnxt hE
    · rw [if_neg hv, List.nil_append]
      exact chainOk_mono hposnxt hE

/-- The edits generated by the fence scanner, from any well-formed
intermediate state, form a well-chained (ascending, disjoint, in-bounds)
edit list. -/
theorem scanAux_chainOk (content : Str) :
    ∀ (todo : List Str) (off pos : Nat) (st : Option (Nat × Str × Nat)),
      (∀ p ∈ todo, p ≠ []) →
      (∀ p ∈ todo.dropLast, p.getLast? = some '\n') →
      content.drop off = todo.flatten →
      off ≤ content.length →
      (todo ≠ [] → off = 0 ∨ content[off - 1]? = some '\n') →
      stInv content off pos st →
      chainOk content.length pos
        (((scanFencesAux todo off st).map (editsOfBlock content)).flatten) := by
  intro todo
  induction todo with
  | nil =>
    intro off pos st hne hends hcorr hoff hstart hst
    cases st with
    | none =>
      simp only [scanFencesAux, List.map_nil, List.flatten_nil]
      show pos ≤ content.length
      exact le_trans hst hoff
    | some s =>
      obtain ⟨os, info, cs⟩ := s
      obtain ⟨hp1, hp2, hp3, hls0⟩ := hst
      have hls : lineStartBefore content os = os := by
        rcases Nat.eq_zero_or_pos os with rfl | hpos
        · exact lineStartBefore_zero content
        · rcases hls0 with h0 | hnl
          · omega
          · exact lineStartBefore_of_newline_at hpos hnl
      simp only [scanFencesAux, List.map_cons, List.map_nil, List.flatten_cons,
        List.flatten_nil, List.append_nil]
      have happ := chainOk_editsOfBlock_append content ⟨info, os, cs, off, off⟩
        pos content.length [] hp1 hp2 hp3 hoff hls
        (lt_of_lt_of_le (lt_of_lt_of_le hp2 hp3) (lineEndAfter_ge content off))
        (lineEndAfter_le_length hoff) (lineEndAfter_le_length hoff) hoff
        (le_refl content.length)
      simpa using happ
  | cons l rest ih =>
    intro off pos st hne hends hcorr hoff hstart hst
    have hlne : l ≠ [] := hne l (List.mem_cons_self l rest)
    have hlpos : 0 < l.length := List.length_pos.mpr hlne
    have hflat : content.drop off = l ++ rest.flatten := by
      rw [hcorr, List.flatten_cons]
    have hlenbound : off + l.length ≤ content.length := by
      have hlen := congrArg List.length hflat
      rw [List.length_drop, List.length_append] at hlen
      omega
    have hcorr' : content.drop (off + l.length) = rest.flatten := by
      calc content.drop (off + l.length)
          = (content.drop off).drop l.length := by
            rw [List.drop_drop, Nat.add_comm]
        _ = (l ++ rest.flatten).drop l.length := by rw [hflat]
        _ = rest.flatten := List.drop_left _ _
    have hne' : ∀ p ∈ rest, p ≠ [] := fun p hp => hne p (List.mem_cons_of_mem l hp)
    have hends' : ∀ p ∈ rest.dropLast, p.getLast? = some '\n' := by
      intro p hp
      cases rest with
      | nil => simp at hp
      | cons r rs =>
        apply hends
        rw [List.dropLast_cons_of_ne_nil (by simp)]
        exact List.mem_cons_of_mem l hp
    have hstart' : rest ≠ [] →
        off + l.length = 0 ∨ content[off + l.length - 1]? = some '\n' := by
      intro hrne
      right
      have hlend : l.getLast? = some '\n' := by
        apply hends
        cases rest with
        | nil => exact absurd rfl hrne
        | cons r rs =>
          rw [List.dropLast_cons_of_ne_nil (by simp)]
          exact List.mem_cons_self _ _
      have hch := charAt_of_drop hflat (l.length - 1) (by omega)
      rw [List.getLast?_eq_getElem? l] at hlend
      rw [show off + l.length - 1 = off + (l.length - 1) by omega, hch]
      exact hlend
    cases st with
    | none =>
      by_cases hf : fenceTok.isPrefixOf l
      · rw [scanFencesAux, if_pos hf]
        apply ih (off + l.length) pos
          (some (off, (stripNL l).drop 3, off + l.length))
          hne' hends' hcorr' hlenbound hstart'
        exact ⟨hst, by omega, le_refl _, hstart (by simp)⟩
      · rw [scanFencesAux, if_neg hf]
        apply ih (off + l.length) pos none hne' hends' hcorr' hlenbound hstart'
        show pos ≤ off + l.length
        have : pos ≤ off := hst
        omega
    | some s =>
      obtain ⟨os, info, cs⟩ := s
      obtain ⟨hp1, hp2, hp3, hls0⟩ := hst
      have hls : lineStartBefore content os = os := by
        rcases Nat.eq_zero_or_pos os with rfl | hpos
        · exact lineStartBefore_zero content
        · rcases hls0 with h0 | hnl
          · omega
          · exact lineStartBefore_of_newline_at hpos hnl
      by_cases hf : fenceTok.isPrefixOf l
      · rw [scanFencesAux, if_pos hf]
        simp only [List.map_cons, List.flatten_cons]
        have hErest := ih (off + l.length) (off + l.length) none
          hne' hends' hcorr' hlenbound hstart' (le_refl _)
        have hleval :
            lineEndAfter content (off + (stripNL l).length) = off + l.length := by
          by_cases hln : l.getLast? = some '\n'
          · have hstrip : (stripNL l).length = l.length - 1 := by
              rw [stripNL, if_pos hln, List.length_dropLast]
            have hch := charAt_of_drop hflat (l.length - 1) (by omega)
            rw [List.getLast?_eq_getElem? l] at hln
            have hnl2 : content[off + (l.length - 1)]? = some '\n' := by
              rw [hch]; exact hln
            rw [hstrip, lineEndAfter_of_newline_at hnl2]
            omega
          · have hrest : rest = [] := by
              cases rest with
              | nil => rfl
              | cons r rs =>
                exfalso
                apply hln
                apply hends
                rw [List.dropLast_cons_of_ne_nil (by simp)]
                exact List.mem_cons_self _ _
            have hstrip : stripNL l = l := by rw [stripNL, if_neg hln]
            have hlen3 : content.length ≤ off + l.length := by
              rw [hrest] at hcorr'
              simp only [List.flatten_nil] at hcorr'
              have := List.drop_eq_nil_iff.mp hcorr'
              omega
            rw [hstrip, lineEndAfter_of_eof hlen3]
        apply chainOk_editsOfBlock_append content
          ⟨info, os, cs, off, off + (stripNL l).length⟩ pos (off + l.length) _
          hp1 hp2 hp3 hoff hls
        · show os < lineEndAfter content (off + (stripNL l).length)
          rw [hleval]
          omega
        · show lineEndAfter content (off + (stripNL l).length) ≤ content.length
          rw [hleval]
          exact hlenbound
        · show lineEndAfter content (off + (stripNL l).length) ≤ off + l.length
          exact le_of_eq hleval
        · show off ≤ off + l.length
          omega
        · exact hErest
      · rw [scanFencesAux, if_neg hf]
        apply ih (off + l.length) pos (some (os, info, cs))
          hne' hends' hcorr' hlenbound hstart'
        exact ⟨hp1, hp2, by omega, hls0⟩

/-- The edits of a chapter are well-chained from the origin. -/
theorem editsOf_chainOk (content : Str) :
    chainOk content.length 0 (editsOf content) := by
  unfold editsOf scanFences
  apply scanAux_chainOk content (splitInclusive content) 0 0 none
  · exact fun p hp => (splitInclusive_piece_shape content p hp).1
  · exact splitInclusive_dropLast_ends content
  · rw [List.drop_zero, splitInclusive_flatten]
  · exact Nat.zero_le _
  · intro _; exact Or.inl rfl
  · exact Nat.le_refl 0

/-- **C1.** For every chapter body, every fenced code block whose info
string sets `hidden` is deleted entirely by the chapter rewriter: the
edit list contains a deletion whose range starts at the beginning of the
line containing the opening fence (just after a newline, or at offset 0,
with no newline in between) and ends just past the newline terminating
the closing fence (or at the fence end when no newline follows), and the
rewritten chapter is a projection of a subsequence of the annotated
rendering of the edits in which no character originating inside that
deleted range — in particular no byte of the fence — occurs. -/
theorem c1_hidden_block_deleted (content : Str) (b : FencedBlock)
    (hb : b ∈ scanFences content)
    (hh : (parseInfoString4 b.info).hidden = true) :
    Edit.delete (lineStartBefore content b.openStart)
        (lineEndAfter content b.fenceEnd) ∈ editsOf content ∧
    lineStartBefore content b.openStart ≤ b.openStart ∧
    (lineStartBefore content b.openStart = 0 ∨
      content[lineStartBefore content b.openStart - 1]? = some '\n') ∧
    (∀ j : Nat, lineStartBefore content b.openStart ≤ j → j < b.openStart →
      content[j]? ≠ some '\n') ∧
    b.fenceEnd ≤ lineEndAfter content b.fenceEnd ∧
    ((lineEndAfter content b.fenceEnd = b.fenceEnd ∧
        ∀ j : Nat, b.fenceEnd ≤ j → content[j]? ≠ some '\n') ∨
      (b.fenceEnd < lineEndAfter content b.fenceEnd ∧
        content[lineEndAfter content b.fenceEnd - 1]? = some '\n' ∧
        ∀ j : Nat, b.fenceEnd ≤ j → j < lineEndAfter content b.fenceEnd - 1 →
          content[j]? ≠ some '\n')) ∧
    (∀ (p : Nat) (ch : Char),
      lineStartBefore content b.openStart ≤ p →
      p < lineEndAfter content b.fenceEnd →
      (some p, ch) ∉
        renderAscL (annotChars content) annRepl 0 (editsOf content)) ∧
    ∃ annotated,
      List.Sublist annotated
        (renderAscL (annotChars content) annRepl 0 (editsOf content)) ∧
      annotated.map Prod.snd = stripMarkersFromChapter content := by
  have hmem : Edit.delete (lineStartBefore content b.openStart)
      (lineEndAfter content b.fenceEnd) ∈ editsOf content := by
    unfold editsOf
    rw [List.mem_flatten]
    refine ⟨editsOfBlock content b, List.mem_map_of_mem _ hb, ?_⟩
    rw [editsOfBlock_hidden hh]
    exact List.mem_singleton_self _
  obtain ⟨hs1, hs2, hs3⟩ := lineStartBefore_spec content b.openStart
  refine ⟨hmem, hs1, hs2, hs3, lineEndAfter_ge content b.fenceEnd,
    lineEndAfter_spec content b.fenceEnd, ?_, ?_⟩
  · intro p ch hp1 hp2
    exact renderAscA_origin_excluded content (editsOf content) 0
      (Edit.delete (lineStartBefore content b.openStart)
        (lineEndAfter content b.fenceEnd))
      (editsOf_chainOk content) hmem p ch hp1 hp2
  · have hpipe : stripMarkersFromChapter content =
        normalizeBlankLines
          ((renderAscL (annotChars content) annRepl 0 (editsOf content)).map
            Prod.snd) := by
      rw [strip_eq_renderAsc content (editsOf_chainOk content), renderAsc_proj]
    have hsub : List.Sublist (stripMarkersFromChapter content)
        ((renderAscL (annotChars content) annRepl 0 (editsOf content)).map
          Prod.snd) := by
      rw [hpipe]
      exact normalizeBlankLines_sublist _
    obtain ⟨A, hA1, hA2⟩ := List.sublist_map_iff.mp hsub
    exact ⟨A, hA1, hA2.symm⟩

/-- Witness for C1 at a concrete chapter whose hidden fence spans bytes
2–23: the hypotheses hold by computation and the theorem applies. -/
theorem c1_witness :
    (c1Block ∈ scanFences c1Content ∧
      (parseInfoString4 c1Block.info).hidden = true) ∧
    (Edit.delete (lineStartBefore c1Content c1Block.openStart)
        (lineEndAfter c1Content c1Block.fenceEnd) ∈ editsOf c1Content ∧
    lineStartBefore c1Content c1Block.openStart ≤ c1Block.openStart ∧
    (lineStartBefore c1Content c1Block.openStart = 0 ∨
      c1Content[lineStartBefore c1Content c1Block.openStart - 1]? =
        some '\n') ∧
    (∀ j : Nat, lineStartBefore c1Content c1Block.openStart ≤ j →
      j < c1Block.openStart → c1Content[j]? ≠ some '\n') ∧
    c1Block.fenceEnd ≤ lineEndAfter c1Content c1Block.fenceEnd ∧
    ((lineEndAfter c1Content c1Block.fenceEnd = c1Block.fenceEnd ∧
        ∀ j : Nat, c1Block.fenceEnd ≤ j → c1Content[j]? ≠ some '\n') ∨
      (c1Block.fenceEnd < lineEndAfter c1Content c1Block.fenceEnd ∧
        c1Content[lineEndAfter c1Content c1Block.fenceEnd - 1]? =
          some '\n' ∧
        ∀ j : Nat, c1Block.fenceEnd ≤ j →
          j < lineEndAfter c1Content c1Block.fenceEnd - 1 →
          c1Content[j]? ≠ some '\n')) ∧
    (∀ (p : Nat) (ch : Char),
      lineStartBefore c1Content c1Block.openStart ≤ p →
      p < lineEndAfter c1Content c1Block.fenceEnd →
      (some p, ch) ∉
        renderAscL (annotChars c1Content) annRepl 0 (editsOf c1Content)) ∧
    ∃ annotated,
      List.Sublist annotated
        (renderAscL (annotChars c1Content) annRepl 0 (editsOf c1Content)) ∧
      annotated.map Prod.snd = stripMarkersFromChapter c1Content) :=
  ⟨⟨by decide, by decide⟩,
    c1_hidden_block_deleted c1Content c1Block (by decide) (by decide)⟩

/-- `noTriple` passes to contiguous parts. -/
theorem noTriple_of_isInfix {u t : Str} (h : u <:+: t) (hnt : noTriple t) :
    noTriple u :=
  fun hu => hnt (hu.trans h)

/-- Without a triple newline run, at most two newlines lead the string. -/
theorem leadNl_le_two_of_noTriple {t : Str} (h : noTriple t) :
    (t.takeWhile (fun c => c = '\n')).length ≤ 2 := by
  by_contra hc
  push_neg at hc
  apply h
  apply List.IsPrefix.isInfix
  cases hw : t.takeWhile (fun c => c = '\n') with
  | nil => rw [hw] at hc; simp at hc
  | cons a w1 =>
    cases hw1 : w1 with
    | nil => rw [hw, hw1] at hc; simp at hc
    | cons b w2 =>
      cases hw2 : w2 with
      | nil => rw [hw, hw1, hw2] at hc; simp at hc
      | cons c w3 =>
        have hmem : ∀ x ∈ t.takeWhile (fun ch => ch = '\n'), x = '\n' := by
          intro x hx
          have := List.mem_takeWhile_imp hx
          simpa using this
        have ha : a = '\n' := hmem a (by rw [hw]; simp)
        have hb : b = '\n' := hmem b (by rw [hw, hw1]; simp)
        have hcc : c = '\n' := hmem c (by rw [hw, hw1, hw2]; simp)
        have hpre := List.takeWhile_prefix (l := t) (fun ch : Char => ch = '\n')
        rw [hw, hw1, hw2, ha, hb, hcc] at hpre
        obtain ⟨tail, htail⟩ := hpre
        exact ⟨w3 ++ tail, by rw [← htail]; simp⟩

/-- The newline-collapsing fold leaves no triple newline run, and leads
with at most `2 - k` newlines. -/
theorem normalizeNl_noTriple_aux :
    ∀ (s : Str) (k : Nat),
      ((normalizeNl s k).takeWhile (fun c => c = '\n')).length ≤ 2 - k ∧
      noTriple (normalizeNl s k) := by
  intro s
  induction s with
  | nil =>
    intro k
    constructor
    · simp [normalizeNl]
    · intro h
      rw [show normalizeNl [] k = [] from rfl] at h
      have := h.sublist.length_le
      simp at this
  | cons c rest ih =>
    intro k
    by_cases hc : c = '\n'
    · by_cases hk : k + 1 ≤ 2
      · rw [show normalizeNl (c :: rest) k = c :: normalizeNl rest (k + 1) by
          rw [normalizeNl, if_pos hc, if_pos hk]]
        obtain ⟨ihl, ihn⟩ := ih (k + 1)
        constructor
        · rw [List.takeWhile_cons_of_pos (by simp [hc])]
          simp only [List.length_cons]
          omega
        · intro hinf
          rcases List.infix_cons_iff.mp hinf with hpre | hinf'
          · obtain ⟨tail, htail⟩ := hpre
            simp only [List.cons_append, List.cons.injEq] at htail
            obtain ⟨-, htail2⟩ := htail
            have hlead : ((normalizeNl rest (k + 1)).takeWhile
                (fun ch => ch = '\n')).length ≥ 2 := by
              rw [← htail2, List.takeWhile_cons_of_pos (by simp),
                List.takeWhile_cons_of_pos (by simp)]
              simp
            omega
          · exact ihn hinf'
      · rw [show normalizeNl (c :: rest) k = normalizeNl rest (k + 1) by
          rw [normalizeNl, if_pos hc, if_neg hk]]
        obtain ⟨ihl, ihn⟩ := ih (k + 1)
        exact ⟨by omega, ihn⟩
    · rw [show normalizeNl (c :: rest) k = c :: normalizeNl rest 0 by
        rw [normalizeNl, if_neg hc]]
      obtain ⟨ihl, ihn⟩ := ih 0
      constructor
      · rw [List.takeWhile_cons_of_neg (by simp [hc])]
        simp
      · intro hinf
        rcases List.infix_cons_iff.mp hinf with hpre | hinf'
        · obtain ⟨tail, htail⟩ := hpre
          simp only [List.cons_append, List.cons.injEq] at htail
          exact hc htail.1.symm
        · exact ihn hinf'

/-- The newline-collapsing fold fixes a string with no triple newline
run, given the counter leaves room for its leading newlines. -/
theorem normalizeNl_fixed :
    ∀ (t : Str) (k : Nat), noTriple t →
      (t.takeWhile (fun c => c = '\n')).length + k ≤ 2 →
      normalizeNl t k = t := by
  intro t
  induction t with
  | nil => intro k _ _; rfl
  | cons c rest ih =>
    intro k hnt hlead
    have hrest : noTriple rest :=
      noTriple_of_isInfix (List.IsSuffix.isInfix ⟨[c], rfl⟩) hnt
    by_cases hc : c = '\n'
    · rw [List.takeWhile_cons_of_pos (by simp [hc]), List.length_cons] at hlead
      rw [normalizeNl, if_pos hc, if_pos (by omega)]
      rw [ih (k + 1) hrest (by omega)]
    · rw [normalizeNl, if_neg hc]
      rw [ih 0 hrest (by simpa using leadNl_le_two_of_noTriple hrest)]

/-- Blank-line normalization is idempotent. -/
theorem normalizeBlankLines_idem (s : Str) :
    normalizeBlankLines (normalizeBlankLines s) = normalizeBlankLines s := by
  obtain ⟨-, hnt⟩ := normalizeNl_noTriple_aux s 0
  have htrim : noTriple (rustTrim (normalizeNl s 0)) :=
    noTriple_of_isInfix (rustTrim_isInfix _) hnt
  unfold normalizeBlankLines
  rw [normalizeNl_fixed (rustTrim (normalizeNl s 0)) 0 htrim
      (by simpa using leadNl_le_two_of_noTriple htrim),
    rustTrim_idem]

/-- **C6 (counterexample).** The chapter rewriter is not idempotent as
claimed: excising the ASSERT marker from this block body splices together
a fresh SETUP opener, which only the second application strips, so
applying `strip_markers_from_chapter` twice differs from applying it
once. -/
theorem c6_counterexample :
    ¬ ∀ content : Str,
        stripMarkersFromChapter (stripMarkersFromChapter content) =
          stripMarkersFromChapter content := by
  intro h
  exact absurd
    (h "\x60\x60\x60sql validator=sqlite\n<!--SET<!--ASSERT\nx\n-->UP\ny\n-->\nSELECT 1;\n\x60\x60\x60".toList)
    (by decide)

/-- **C6 (amended).** The chapter rewriter is idempotent on every chapter
for which it computes no span edits either on the chapter or on its
once-rewritten form; its output is then the blank-line-normalized
chapter, and normalization is idempotent. -/
theorem c6_rewriter_idempotent_of_no_edits (content : Str)
    (h1 : editsOf content = [])
    (h2 : editsOf (stripMarkersFromChapter content) = []) :
    stripMarkersFromChapter (stripMarkersFromChapter content) =
      stripMarkersFromChapter content := by
  have hstrip : ∀ s : Str, editsOf s = [] →
      stripMarkersFromChapter s = normalizeBlankLines s := by
    intro s hs
    unfold stripMarkersFromChapter
    rw [hs]
    rfl
  rw [hstrip _ h2, hstrip _ h1]
  exact normalizeBlankLines_idem content

/-- Witness for the amended C6 at a concrete chapter with no validator
fences. -/
theorem c6_witness :
    (editsOf "hello\nworld".toList = [] ∧
      editsOf (stripMarkersFromChapter "hello\nworld".toList) = []) ∧
    stripMarkersFromChapter (stripMarkersFromChapter "hello\nworld".toList) =
      stripMarkersFromChapter "hello\nworld".toList :=
  ⟨⟨by decide, by decide⟩,
    c6_rewriter_idempotent_of_no_edits "hello\nworld".toList
      (by decide) (by decide)⟩

end MdbookValidator
